import Mathlib

/-!
Verification of the nav coding assistant's core (hashline engine, read tool,
process-output buffering, agent conversation handling, Ollama message
translation, handover) against its natural-language specification.

The TypeScript sources are embedded shallowly: JavaScript strings are Lean
`String`s, and the JS string operations used by the code (split("\n"),
trim(), regexes, Array#splice, the stable Array#sort) are modelled by
structurally recursive Lean functions over `List Char` / `List String` so
that everything evaluates inside the kernel.  Machine integers stay `Nat`
with explicit reduction mod 2^32 where the code does 32-bit arithmetic
(xxHash32).  Fallible code returns `Except`.
-/

/-! ## JavaScript string primitives -/

/-- The character class of the JavaScript regex `\s` (used by `String#trim`
and by the whitespace-stripping regex in `computeLineHash`): tab, LF, VT,
FF, CR, space, NBSP, U+1680, U+2000..U+200A, U+2028, U+2029, U+202F,
U+205F, U+3000 and the BOM U+FEFF. -/
def isJsWs (c : Char) : Bool :=
  let n := c.toNat
  n = 9 || n = 10 || n = 11 || n = 12 || n = 13 || n = 32 || n = 160 ||
  n = 5760 || (8192 ≤ n && n ≤ 8202) || n = 8232 || n = 8233 || n = 8239 ||
  n = 8287 || n = 12288 || n = 65279

/-- Split a character list at every newline, as JavaScript
`string.split("\n")` does (always at least one part; empty parts kept). -/
def splitChars : List Char → List (List Char)
  | [] => [[]]
  | c :: rest =>
    if c = '\n' then [] :: splitChars rest
    else
      match splitChars rest with
      | [] => [[c]]
      | h :: t => (c :: h) :: t

/-- JavaScript `content.split("\n")` on a Lean string. -/
def splitNl (s : String) : List String :=
  (splitChars s.data).map String.mk

/-- JavaScript `parts.join("\n")`. -/
def joinNl : List String → String
  | [] => ""
  | [s] => s
  | s :: rest => s ++ "\n" ++ joinNl rest

/-- JavaScript `String#trim` (drops `\s` characters at both ends). -/
def jsTrim (s : String) : String :=
  String.mk (((s.data.dropWhile isJsWs).reverse.dropWhile isJsWs).reverse)

/-- Decimal digit characters, the JS regex class `\d`. -/
def isDigitC (c : Char) : Bool := '0' ≤ c && c ≤ '9'

/-- The JS regex class `[0-9a-fA-F]`. -/
def isHexC (c : Char) : Bool :=
  ('0' ≤ c && c ≤ '9') || ('a' ≤ c && c ≤ 'f') || ('A' ≤ c && c ≤ 'F')

/-- JavaScript `String#toLowerCase`, restricted to ASCII letters (the only
characters it is applied to here are hex digits). -/
def toLowerC (c : Char) : Char :=
  if 'A' ≤ c && c ≤ 'Z' then Char.ofNat (c.toNat + 32) else c

/-- Lowercase a string, as `String#toLowerCase` on the hash strings here. -/
def lowerStr (s : String) : String := String.mk (s.data.map toLowerC)

/-- The decimal digit characters. -/
def digitChars : List Char := ['0', '1', '2', '3', '4', '5', '6', '7', '8', '9']

/-- Decimal digit character for n < 10. -/
def digitC (n : Nat) : Char := digitChars.getD n '0'

/-- Decimal digits of a natural number (fuel-driven so the kernel reduces it;
the fuel `n+1` always suffices). -/
def natDigitsAux : Nat → Nat → List Char
  | 0, _ => []
  | fuel + 1, n =>
    if n < 10 then [digitC n]
    else natDigitsAux fuel (n / 10) ++ [digitC (n % 10)]

/-- Decimal rendering of a natural number, modelling the JS template
interpolation of an integer. -/
def natRepr (n : Nat) : String := String.mk (natDigitsAux (n + 1) n)

/-- Numeric value of a decimal digit string (JS `parseInt(s, 10)` on an
all-digit string). -/
def digitsToNat (ds : List Char) : Nat :=
  ds.foldl (fun acc c => acc * 10 + (c.toNat - 48)) 0

/-! ## UTF-8 and xxHash32

`Bun.hash.xxHash32(s)` hashes the UTF-8 encoding of the string with seed 0.
The algorithm below is the reference xxHash32 over a byte list, written with
`Nat` arithmetic mod 2^32. -/

/-- UTF-8 encoding of one character. -/
def encodeChar (c : Char) : List Nat :=
  let n := c.toNat
  if n < 128 then [n]
  else if n < 2048 then [192 + n / 64, 128 + n % 64]
  else if n < 65536 then [224 + n / 4096, 128 + (n / 64) % 64, 128 + n % 64]
  else [240 + n / 262144, 128 + (n / 4096) % 64, 128 + (n / 64) % 64, 128 + n % 64]

/-- UTF-8 bytes of a character list. -/
def utf8BytesL (cs : List Char) : List Nat := cs.flatMap encodeChar

/-- UTF-8 bytes of a string (models `Buffer.byteLength(s, "utf-8")` via
`(utf8Bytes s).length`). -/
def utf8Bytes (s : String) : List Nat := utf8BytesL s.data

/-- 2^32, the modulus of 32-bit arithmetic. -/
def U32 : Nat := 4294967296

def add32 (a b : Nat) : Nat := (a + b) % U32

def mul32 (a b : Nat) : Nat := (a * b) % U32

/-- Left-rotation of a 32-bit value by r bits. -/
def rotl32 (r x : Nat) : Nat := (x * 2 ^ r) % U32 + x / 2 ^ (32 - r)

def xor32 (a b : Nat) : Nat := a ^^^ b

def XXPRIME1 : Nat := 2654435761
def XXPRIME2 : Nat := 2246822519
def XXPRIME3 : Nat := 3266489917
def XXPRIME4 : Nat := 668265263
def XXPRIME5 : Nat := 374761393

/-- One xxHash32 lane round. -/
def xxRound (acc lane : Nat) : Nat :=
  mul32 (rotl32 13 (add32 acc (mul32 lane XXPRIME2))) XXPRIME1

/-- Consume 16-byte stripes, updating the four lanes. -/
def xxStripes : List Nat → Nat → Nat → Nat → Nat → Nat × Nat × Nat × Nat × List Nat
  | b0 :: b1 :: b2 :: b3 :: b4 :: b5 :: b6 :: b7 ::
    b8 :: b9 :: b10 :: b11 :: b12 :: b13 :: b14 :: b15 :: rest, v1, v2, v3, v4 =>
    let w1 := b0 + b1 * 256 + b2 * 65536 + b3 * 16777216
    let w2 := b4 + b5 * 256 + b6 * 65536 + b7 * 16777216
    let w3 := b8 + b9 * 256 + b10 * 65536 + b11 * 16777216
    let w4 := b12 + b13 * 256 + b14 * 65536 + b15 * 16777216
    xxStripes rest (xxRound v1 w1) (xxRound v2 w2) (xxRound v3 w3) (xxRound v4 w4)
  | bs, v1, v2, v3, v4 => (v1, v2, v3, v4, bs)

/-- Consume remaining 4-byte words. -/
def xxTail4 : List Nat → Nat → Nat × List Nat
  | b0 :: b1 :: b2 :: b3 :: rest, acc =>
    let w := b0 + b1 * 256 + b2 * 65536 + b3 * 16777216
    xxTail4 rest (mul32 (rotl32 17 (add32 acc (mul32 w XXPRIME3))) XXPRIME4)
  | bs, acc => (acc, bs)

/-- Consume remaining single bytes. -/
def xxTail1 : List Nat → Nat → Nat
  | b :: rest, acc => xxTail1 rest (mul32 (rotl32 11 (add32 acc (mul32 b XXPRIME5))) XXPRIME1)
  | [], acc => acc

/-- Final avalanche mix. -/
def xxAvalanche (h : Nat) : Nat :=
  let h1 := mul32 (xor32 h (h / 2 ^ 15)) XXPRIME2
  let h2 := mul32 (xor32 h1 (h1 / 2 ^ 13)) XXPRIME3
  xor32 h2 (h2 / 2 ^ 16)

/-- xxHash32 of a byte list with the given seed (checked against the
reference test vectors for "", "a", "abc" and a 39-byte input). -/
def xxHash32 (bytes : List Nat) (seed : Nat := 0) : Nat :=
  let len := bytes.length
  let start :=
    if 16 ≤ len then
      let s := xxStripes bytes (add32 (add32 seed XXPRIME1) XXPRIME2)
        (add32 seed XXPRIME2) seed ((seed + (U32 - XXPRIME1)) % U32)
      (add32 (add32 (add32 (rotl32 1 s.1) (rotl32 7 s.2.1)) (rotl32 12 s.2.2.1))
        (rotl32 18 s.2.2.2.1), s.2.2.2.2)
    else (add32 seed XXPRIME5, bytes)
  let afterLen := add32 start.1 len
  let t4 := xxTail4 start.2 afterLen
  xxAvalanche (xxTail1 t4.2 t4.1)

/-! ## Hashline engine (src/hashline.ts) -/

/-- The lowercase hex digit characters of `toString(16)`. -/
def hexChars : List Char :=
  digitChars ++ ['a', 'b', 'c', 'd', 'e', 'f']

/-- One lowercase hex digit for n < 16. -/
def hexDigitLower (n : Nat) : Char := hexChars.getD n '0'

/-- Two lowercase hex digits of n < 256: the table
`DICT[i] = i.toString(16).padStart(2, "0")`. -/
def toHex2 (n : Nat) : String :=
  String.mk [hexDigitLower (n / 16), hexDigitLower (n % 16)]

/-- Compute a 2-char hex hash for a line: strip a trailing CR, remove all
`\s` characters, xxHash32 the UTF-8 bytes, reduce mod 256 (HASH_MOD),
render as two lowercase hex digits.  The line number is ignored, as in the
source. -/
def computeLineHash (_lineNum : Nat) (line : String) : String :=
  let noCr := if line.data.getLast? = some '\r' then line.data.dropLast else line.data
  let stripped := noCr.filter (fun c => ¬ isJsWs c)
  toHex2 (xxHash32 (utf8BytesL stripped) % 256)

/-- Display lines `num:hash|line`, numbering from `num` upward (the source
maps index i to `startLine + i`). -/
def fmtLines (num : Nat) : List String → List String
  | [] => []
  | l :: ls => (natRepr num ++ ":" ++ computeLineHash num l ++ "|" ++ l) :: fmtLines (num + 1) ls

/-- Format file content with hashline prefixes for display. -/
def formatHashLines (content : String) (startLine : Nat := 1) : String :=
  joinNl (fmtLines startLine (splitNl content))

/-- The cleaning step `ref.replace(/\|.*$/, "")`: remove from the first `|`
that has no later newline (JS `.` does not cross `\n` and `$` anchors at the
very end) through the end of the string. -/
def cutPipe : List Char → List Char
  | [] => []
  | c :: rest =>
    if c = '|' then
      if rest.contains '\n' then c :: cutPipe rest else []
    else c :: cutPipe rest

/-- Match `^(\d+):([0-9a-fA-F]{1,4})$` against a character list, returning
the digit group and the hex group. -/
def matchAnchor (cs : List Char) : Option (List Char × List Char) :=
  let ds := cs.takeWhile isDigitC
  if ds = [] then none
  else
    match cs.drop ds.length with
    | ':' :: hx =>
      if hx.all isHexC ∧ 1 ≤ hx.length ∧ hx.length ≤ 4 then some (ds, hx) else none
    | _ => none

/-- A parsed `LINE:HASH` reference. -/
structure LineRef where
  line : Nat
  hash : String
deriving DecidableEq, Repr

/-- A single hash mismatch record `{line, expected, actual}`. -/
structure HashMismatch where
  line : Nat
  expected : String
  actual : String
deriving DecidableEq, Repr

inductive EditErr
  | invalidRef (ref : String)
  | lineTooSmall (line : Nat)
  | lineOutOfRange (line count : Nat)
  | rangeInverted (start stop : Nat)
  | emptyInsert
  | hashMismatch (mismatches : List HashMismatch) (fileLines : List String)
deriving DecidableEq, Repr

/-- Parse "LINE:HASH" into structured form, tolerant of display-format
suffixes (`parseLineRef` in the source). -/
def parseLineRef (ref : String) : Except EditErr LineRef :=
  let cleaned := jsTrim (String.mk (cutPipe ref.data))
  match matchAnchor cleaned.data with
  | none => .error (.invalidRef ref)
  | some (ds, hx) =>
    let line := digitsToNat ds
    if line < 1 then .error (.lineTooSmall line)
    else .ok ⟨line, lowerStr (String.mk hx)⟩

/-- Validate one reference against the file snapshot: out-of-range lines
throw, a differing recomputed hash yields a mismatch record, a matching
hash yields none. -/
def validateLineRef (ref : LineRef) (fileLines : List String) :
    Except EditErr (Option HashMismatch) :=
  if ref.line < 1 ∨ fileLines.length < ref.line then
    .error (.lineOutOfRange ref.line fileLines.length)
  else
    let actual := computeLineHash ref.line (fileLines.getD (ref.line - 1) "")
    if actual ≠ lowerStr ref.hash then .ok (some ⟨ref.line, ref.hash, actual⟩)
    else .ok none

/-- The three edit operation shapes. -/
inductive HashlineEdit
  | set_line (anchor : String) (new_text : String)
  | replace_lines (start_anchor : String) (end_anchor : String) (new_text : String)
  | insert_after (anchor : String) (text : String)
deriving DecidableEq, Repr

/-- Try to consume exactly k hex digits then a `|`, returning the rest. -/
def hexPipeAt (k : Nat) (cs : List Char) : Option (List Char) :=
  if (cs.take k).length = k ∧ (cs.take k).all isHexC then
    match cs.drop k with
    | '|' :: rest => some rest
    | _ => none
  else none

/-- Greedy `[0-9a-fA-F]{1,4}\|` with backtracking: try the longest hex run
first, as the regex engine does. -/
def hexPipe : Nat → List Char → Option (List Char)
  | 0, _ => none
  | k + 1, cs =>
    match hexPipeAt (k + 1) cs with
    | some rest => some rest
    | none => hexPipe k cs

/-- Strip one hashline display prefix `^\d+:[0-9a-fA-F]{1,4}\|` if present
(the regex `HASHLINE_PREFIX_RE`). -/
def matchHashlinePfx (cs : List Char) : Option (List Char) :=
  let ds := cs.takeWhile isDigitC
  if ds = [] then none
  else
    match cs.drop ds.length with
    | ':' :: hx => hexPipe 4 hx
    | _ => none

/-- Result of `l.replace(HASHLINE_PREFIX_RE, "")` on one line. -/
def stripPfx1 (l : String) : String :=
  match matchHashlinePfx l.data with
  | some rest => String.mk rest
  | none => l

/-- The number of non-empty lines that carry a display prefix (`count` in
the source loop). -/
def pfxCount (lines : List String) : Nat :=
  (lines.filter (fun l => 0 < l.length ∧ (matchHashlinePfx l.data).isSome)).length

/-- The number of non-empty lines (`nonEmpty` in the source). -/
def nonEmptyCount (lines : List String) : Nat :=
  (lines.filter (fun l => 0 < l.length)).length

/-- Strip hashline prefixes that models accidentally include in new_text:
if at least half of the non-empty lines carry a display prefix, strip it
from every line (`count >= nonEmpty * 0.5` is exact in binary floating
point, hence `2 * count ≥ nonEmpty`). -/
def stripHashlinePrefixes (lines : List String) : List String :=
  if 0 < nonEmptyCount lines ∧ nonEmptyCount lines ≤ 2 * pfxCount lines then
    lines.map stripPfx1
  else lines

inductive EKind
  | set
  | range
  | insert
deriving DecidableEq, Repr

/-- A parsed edit, ready for splicing. -/
structure ParsedEdit where
  kind : EKind
  startLine : Nat
  endLine : Nat
  startRef : LineRef
  endRef : Option LineRef
  newLines : List String
deriving DecidableEq, Repr

/-- Parse one edit: resolve anchors, reject inverted ranges and empty
inserts, split and prefix-strip the replacement text (`parseEdit`). -/
def parseEdit : HashlineEdit → Except EditErr ParsedEdit
  | .set_line anchor new_text =>
    match parseLineRef anchor with
    | .error e => .error e
    | .ok ref =>
      let newLines := if new_text = "" then [] else splitNl new_text
      .ok ⟨.set, ref.line, ref.line, ref, none, stripHashlinePrefixes newLines⟩
  | .replace_lines start_anchor end_anchor new_text =>
    match parseLineRef start_anchor with
    | .error e => .error e
    | .ok s =>
      match parseLineRef end_anchor with
      | .error e => .error e
      | .ok en =>
        if en.line < s.line then .error (.rangeInverted s.line en.line)
        else
          let newLines := if new_text = "" then [] else splitNl new_text
          .ok ⟨.range, s.line, en.line, s, some en, stripHashlinePrefixes newLines⟩
  | .insert_after anchor text =>
    match parseLineRef anchor with
    | .error e => .error e
    | .ok ref =>
      if text = "" then .error .emptyInsert
      else .ok ⟨.insert, ref.line, ref.line, ref, none, stripHashlinePrefixes (splitNl text)⟩

/-- Parse a whole batch left to right, stopping at the first failure (the
source runs `edits.map(parseEdit)` and the first throw propagates). -/
def parseAll : List HashlineEdit → Except EditErr (List ParsedEdit)
  | [] => .ok []
  | e :: es =>
    match parseEdit e with
    | .error err => .error err
    | .ok p =>
      match parseAll es with
      | .error err => .error err
      | .ok ps => .ok (p :: ps)

/-- Validate the optional end reference of a parsed edit. -/
def validateEndRef (p : ParsedEdit) (fileLines : List String) :
    Except EditErr (Option HashMismatch) :=
  match p.endRef with
  | some r => validateLineRef r fileLines
  | none => .ok none

/-- Validate every reference of every parsed edit against the snapshot, in
batch order (start anchor then end anchor per edit), collecting all
mismatch records. -/
def collectMismatches : List ParsedEdit → List String → Except EditErr (List HashMismatch)
  | [], _ => .ok []
  | p :: ps, fileLines =>
    match validateLineRef p.startRef fileLines with
    | .error e => .error e
    | .ok m1 =>
      match validateEndRef p fileLines with
      | .error e => .error e
      | .ok m2 =>
        match collectMismatches ps fileLines with
        | .error e => .error e
        | .ok rest => .ok (m1.toList ++ m2.toList ++ rest)

/-- Tie-break precedence: inserts sort after replacements at the same
line. -/
def editPrec : EKind → Nat
  | .insert => 1
  | _ => 0

/-- The sort comparator `(a, b) => b.endLine - a.endLine || prec(a) - prec(b)`
read as a total preorder: a comes no later than b. -/
def editLE (a b : ParsedEdit) : Bool :=
  if a.endLine ≠ b.endLine then b.endLine ≤ a.endLine
  else editPrec a.kind ≤ editPrec b.kind

/-- Stable insertion of an element into a sorted list. -/
def insertSorted (a : ParsedEdit) : List ParsedEdit → List ParsedEdit
  | [] => [a]
  | b :: l => if editLE a b then a :: b :: l else b :: insertSorted a l

/-- Stable sort under `editLE`.  ECMAScript requires `Array#sort` to be
stable, and a stable sort under a consistent comparator has a unique
result, so insertion sort is a faithful model of the source's sort. -/
def sortEdits : List ParsedEdit → List ParsedEdit
  | [] => []
  | a :: l => insertSorted a (sortEdits l)

/-- JavaScript `lines.splice(start, deleteCount, ...items)`. -/
def spliceLines (fl : List String) (start remove : Nat) (items : List String) :
    List String :=
  fl.take start ++ items ++ fl.drop (start + remove)

/-- Apply one parsed edit to the line array, returning the new array and
the (added, removed) counts of this edit. -/
def applyStep (fl : List String) (p : ParsedEdit) : List String × Nat × Nat :=
  match p.kind with
  | .set => (spliceLines fl (p.startLine - 1) 1 p.newLines, p.newLines.length, 1)
  | .range =>
    let removed := p.endLine - p.startLine + 1
    (spliceLines fl (p.startLine - 1) removed p.newLines, p.newLines.length, removed)
  | .insert => (spliceLines fl p.startLine 0 p.newLines, p.newLines.length, 0)

/-- Apply the sorted edits in order, accumulating diff counts. -/
def applyParsed (fl : List String) : List ParsedEdit → List String × Nat × Nat
  | [] => (fl, 0, 0)
  | p :: ps =>
    let s := applyStep fl p
    let r := applyParsed s.1 ps
    (r.1, s.2.1 + r.2.1, s.2.2 + r.2.2)

/-- The result record of `applyHashlineEdits`. -/
structure ApplyResult where
  content : String
  linesAdded : Nat
  linesRemoved : Nat
deriving DecidableEq, Repr

/-- Apply hashline edits to file content: parse everything, validate every
reference before mutating (raising one mismatch error over all failures),
sort bottom-up and splice. -/
def applyHashlineEdits (content : String) (edits : List HashlineEdit) :
    Except EditErr ApplyResult :=
  if edits.length = 0 then .ok ⟨content, 0, 0⟩
  else
    let fileLines := splitNl content
    match parseAll edits with
    | .error e => .error e
    | .ok parsed =>
      match collectMismatches parsed fileLines with
      | .error e => .error e
      | .ok mismatches =>
        if 0 < mismatches.length then .error (.hashMismatch mismatches fileLines)
        else
          let r := applyParsed fileLines (sortEdits parsed)
          .ok ⟨joinNl r.1, r.2.1, r.2.2⟩

/-- The write decision of the edit tool (src/tools/edit.ts): the file is
rewritten (with the returned content) only when the engine succeeds and the
result differs from the old content; on `HashMismatchError`, any other
engine error, an empty batch, or a no-op result, nothing is written. -/
def editToolWrite (oldContent : String) (edits : List HashlineEdit) : Option String :=
  if edits.length = 0 then none
  else
    match applyHashlineEdits oldContent edits with
    | .ok r => if r.content = oldContent then none else some r.content
    | .error _ => none

/-! ## Read tool (src/tools/read.ts)

The filesystem access (`stat`, existence, directory rejection) is external;
`readTool` below is the pure function from the file's text content and the
`offset`/`limit` arguments to the tool output. -/

def MAX_LINES : Nat := 2000

def MAX_BYTES : Nat := 256 * 1024

inductive ReadErr
  | offsetBeyondEnd (offset total : Nat)
deriving DecidableEq, Repr

/-- The read tool on a file's content: select `limit` lines from 1-based
`offset` (a falsy offset means 1), format them as hashlines, append a
continuation hint when lines remain, and append a truncation notice when
the selected content's UTF-8 byte length exceeds MAX_BYTES. -/
def readTool (content : String) (offset limit : Option Nat) : Except ReadErr String :=
  let allLines := splitNl content
  let startLine := match offset with
    | some o => if o = 0 then 1 else max 1 o
    | none => 1
  let startIdx := startLine - 1
  if allLines.length ≤ startIdx then .error (.offsetBeyondEnd startLine allLines.length)
  else
    let maxLines := limit.getD MAX_LINES
    let selectedLines := (allLines.drop startIdx).take maxLines
    let selectedContent := joinNl selectedLines
    let bytes := (utf8Bytes selectedContent).length
    let base := formatHashLines selectedContent startLine
    let totalLines := allLines.length
    let endLine := startIdx + selectedLines.length
    let out1 :=
      if endLine < totalLines then
        base ++ "\n\n[" ++ natRepr (totalLines - endLine) ++
          " more lines. Use offset=" ++ natRepr (endLine + 1) ++ " to continue]"
      else base
    if MAX_BYTES < bytes then
      .ok (out1 ++ "\n[Output truncated at " ++ natRepr MAX_BYTES ++ " bytes]")
    else .ok out1

/-! ## Process manager output buffering (src/process-manager.ts)

`ProcessManager.run` reads both process streams into one shared chunk
buffer.  The reads from the two streams interleave into a single sequence
of decoded text chunks; the state below is the pair
(`outputChunks`, `outputLen`) and `pushChunk` is the body of the read loop:
a chunk is appended only when `outputLen < MAX_OUTPUT` (`outputLen` counts
JS string length). -/

def MAX_OUTPUT : Nat := 256 * 1024

structure OutBuffer where
  outputChunks : List String
  outputLen : Nat
deriving DecidableEq, Repr

/-- One iteration of the stream read loop on a decoded chunk. -/
def pushChunk (st : OutBuffer) (text : String) : OutBuffer :=
  if st.outputLen < MAX_OUTPUT then
    ⟨st.outputChunks ++ [text], st.outputLen + text.length⟩
  else st

/-- Feed a sequence of decoded chunks (the interleaving of the stdout and
stderr reads) through the loop. -/
def feedChunks (st : OutBuffer) : List String → OutBuffer
  | [] => st
  | t :: ts => feedChunks (pushChunk st t) ts

/-- Total length buffered: the length of `outputChunks.join("")`. -/
def totalBuffered (st : OutBuffer) : Nat := (String.join st.outputChunks).length

/-! ## Agent conversation (src/agent.ts, src/llm.ts)

The unified message type, and the mutations the Agent performs on
`this.messages`.  Every assignment to the conversation in agent.ts is one
of: push a user message (`run`, `injectPendingInput`, the summarize prompt
of `handover`), push a text-only assistant message, push an assistant
message with tool calls followed by one tool result per dispatched call,
clear (`handover` success, `clearHistory`), and pop the just-pushed
summarize user message (`handover` cancel). -/

structure ToolCallInfo where
  id : String
  name : String
  arguments : String
deriving DecidableEq, Repr

inductive Msg
  | user (content : String)
  | assistantText (content : String)
  | assistantCalls (content : Option String) (tool_calls : List ToolCallInfo)
  | toolResult (tool_call_id : String) (content : String)
deriving DecidableEq, Repr

/-- The tool-call ids issued by a message (empty unless it is an assistant
message with tool calls). -/
def calledIds : Msg → List String
  | .assistantCalls _ tcs => tcs.map (fun tc => tc.id)
  | _ => []

/-- The tool-result messages appended for the dispatched prefix of a batch:
one per executed call, in issuance order, bound by `tool_call_id`. -/
def toolResultsFor (tcs : List ToolCallInfo) (outs : List String) : List Msg :=
  List.zipWith (fun tc o => Msg.toolResult tc.id o) tcs outs

/-- One conversation mutation of the agent loop.  When `partialBatches` is
false, every tool batch dispatches all its calls (no cancellation during
tool execution). -/
inductive AgentConvStep (partialBatches : Bool) : List Msg → List Msg → Prop
  | pushUser (ms : List Msg) (t : String) :
      AgentConvStep partialBatches ms (ms ++ [.user t])
  | pushAssistantText (ms : List Msg) (t : String) (h : t ≠ "") :
      AgentConvStep partialBatches ms (ms ++ [.assistantText t])
  | toolBatch (ms : List Msg) (txt : Option String) (tcs : List ToolCallInfo)
      (k : Nat) (outs : List String) (hne : tcs ≠ []) (hk : k ≤ tcs.length)
      (houts : outs.length = k)
      (hfull : partialBatches = false → k = tcs.length) :
      AgentConvStep partialBatches ms
        (ms ++ Msg.assistantCalls txt tcs :: toolResultsFor (tcs.take k) outs)
  | clearAll (ms : List Msg) : AgentConvStep partialBatches ms []
  | popLastUser (ms : List Msg) (t : String) :
      AgentConvStep partialBatches (ms ++ [.user t]) ms

/-- Conversation states reachable by the agent loop from the empty
conversation. -/
def ReachableConv (partialBatches : Bool) (ms : List Msg) : Prop :=
  Relation.ReflTransGen (AgentConvStep partialBatches) [] ms

/-! ## Ollama message translation (llm.ts, convertToOllamaMessages) -/

structure OllamaToolCall where
  name : String
  /-- The source passes `JSON.parse(tc.arguments)` (a JSON object); the raw
  JSON text is kept here. -/
  arguments : String
deriving DecidableEq, Repr

structure OllamaMessage where
  role : String
  content : String
  tool_calls : Option (List OllamaToolCall) := none
  tool_name : Option String := none
deriving DecidableEq, Repr

/-- The tool-name lookup `convertToOllamaMessages` performs for a tool
result: walk back through the messages before it and take the name of the
matching call of the nearest assistant message whose `tool_calls` contain
the result's `tool_call_id` ("unknown" when none matches).  The source
computes this value (local variable `toolName`) for every tool-role
message. -/
def resolveToolNameRev : List Msg → String → String
  | [], _ => "unknown"
  | .assistantCalls _ tcs :: rest, cid =>
    match tcs.find? (fun tc => tc.id = cid) with
    | some tc => tc.name
    | none => resolveToolNameRev rest cid
  | _ :: rest, cid => resolveToolNameRev rest cid

def resolveToolName (prior : List Msg) (tool_call_id : String) : String :=
  resolveToolNameRev prior.reverse tool_call_id

/-- Translation of one unified message to Ollama's dialect.  For a tool
result the source pushes `{ role: "tool", content: msg.content }` — the
computed `toolName` is not attached, so `tool_name` is `none`. -/
def convOllamaMsg : Msg → OllamaMessage
  | .user c => ⟨"user", c, none, none⟩
  | .assistantText c => ⟨"assistant", c, none, none⟩
  | .assistantCalls c tcs =>
    ⟨"assistant", c.getD "", some (tcs.map (fun tc => ⟨tc.name, tc.arguments⟩)), none⟩
  | .toolResult _ cont => ⟨"tool", cont, none, none⟩

def convertToOllamaMessages (messages : List Msg) : List OllamaMessage :=
  messages.map convOllamaMsg

/-! ## Handover (src/agent.ts, Agent.handover)

The agent state relevant to the handover claim is the conversation and the
system prompt.  `Agent.run` and `Agent.agentLoop` mutate only
`this.messages` (the only assignments to `this.systemPrompt` in the class
are the constructor and the externally driven `setSystemPrompt`); the
effect of the `this.run(prompt)` call that a successful handover makes on
the fresh conversation is abstracted by `runEff prompt`. -/

structure AgentState where
  messages : List Msg
  systemPrompt : String
deriving DecidableEq, Repr

def summarizePromptText : String :=
  "Summarize concisely what you\u0027ve accomplished so far: files changed, key decisions, and current state. Be specific about file paths and what was done. Reply with only the summary, no preamble."

/-- The composed prompt a successful handover restarts with. -/
def handoverPromptText (summary : String) (instructions : Option String) : String :=
  let base := "Continue working on the task. Here\u0027s a summary of what was done previously:\n\n"
    ++ jsTrim summary
  match instructions with
  | some instr => base ++ "\n\nAdditional instructions: " ++ instr
  | none => base

/-- `Agent.handover`: push the summarize prompt; stream the summary (the
stream appends nothing to the conversation); if the run was aborted or the
trimmed summary is empty, pop the pushed prompt and return; otherwise clear
the conversation, keep the system prompt as-is, and run the composed
prompt. -/
def handover (s : AgentState) (aborted : Bool) (summary : String)
    (instructions : Option String) (runEff : String → List Msg) : AgentState :=
  let s1 : AgentState := { s with messages := s.messages ++ [.user summarizePromptText] }
  if aborted || jsTrim summary = "" then
    { s1 with messages := s1.messages.dropLast }
  else
    { messages := runEff (handoverPromptText summary instructions),
      systemPrompt := s1.systemPrompt }

deriving instance DecidableEq for Except

/-! ## Derived notions used to state the claims -/

/-- The references an edit validates, in validation order (start anchor,
then the end anchor when present). -/
def refsOfEdit (p : ParsedEdit) : List LineRef := p.startRef :: p.endRef.toList

/-- All references of a batch, in validation order. -/
def refsOf (ps : List ParsedEdit) : List LineRef := ps.flatMap refsOfEdit

/-- A reference is stale when the recomputed hash of the line it points to
differs from the (lowercased) anchor hash. -/
def IsStaleRef (r : LineRef) (fileLines : List String) : Prop :=
  computeLineHash r.line (fileLines.getD (r.line - 1) "") ≠ lowerStr r.hash

/-- The mismatch record a stale reference produces. -/
def mismatchOf (r : LineRef) (fileLines : List String) : HashMismatch :=
  ⟨r.line, r.hash, computeLineHash r.line (fileLines.getD (r.line - 1) "")⟩

/-- The mismatch record of a reference, if it is stale. -/
def optMismatch (r : LineRef) (fileLines : List String) : Option HashMismatch :=
  if computeLineHash r.line (fileLines.getD (r.line - 1) "") ≠ lowerStr r.hash then
    some (mismatchOf r fileLines)
  else none

/-- All mismatch records of a batch against a snapshot, in validation
order. -/
def staleMismatches (ps : List ParsedEdit) (fileLines : List String) : List HashMismatch :=
  (refsOf ps).filterMap (fun r => optMismatch r fileLines)

/-- The line list an edit's replacement text splits into before prefix
stripping (the `new_text === "" ? [] : new_text.split("\n")` step of
`parseEdit`; `insert_after` has no empty-text case because empty text is
rejected). -/
def rawNewLines : HashlineEdit → List String
  | .set_line _ t => if t = "" then [] else splitNl t
  | .replace_lines _ _ t => if t = "" then [] else splitNl t
  | .insert_after _ t => splitNl t

/-- A valid hashline display prefix as the claim describes it: one or more
digits, a colon, one to four hex characters, a pipe. -/
def IsDisplayPfx (pre : List Char) : Prop :=
  ∃ ds hx, pre = ds ++ ':' :: (hx ++ ['|']) ∧ ds ≠ [] ∧ ds.all isDigitC ∧
    hx.all isHexC ∧ 1 ≤ hx.length ∧ hx.length ≤ 4

/-- Drop everything up to and including the first `|` of a line (used to
state that the display form keeps the content after the separator
verbatim). -/
def dropThroughPipe : List Char → List Char
  | [] => []
  | c :: rest => if c = '|' then rest else dropThroughPipe rest

/-- The content after the first `|` of a display line. -/
def afterPipe (s : String) : String := String.mk (dropThroughPipe s.data)

/-- Two parsed edits have disjoint line spans (the span of a `set_line` or
`insert_after` is its anchor line; the span of a `replace_lines` is the
inclusive range). -/
def SpansDisjoint (p q : ParsedEdit) : Prop :=
  p.endLine < q.startLine ∨ q.endLine < p.startLine

/-- Whether a message is the tool result bound to the given call id. -/
def isToolResultFor (c : String) : Msg → Bool
  | .toolResult cid _ => cid = c
  | _ => false

/-- Number of tool-result messages for a call id. -/
def resCount (ms : List Msg) (c : String) : Nat :=
  (ms.filter (isToolResultFor c)).length

/-- Number of tool-result messages for a call id strictly after position
i. -/
def followingResCount (ms : List Msg) (i : Nat) (c : String) : Nat :=
  resCount (ms.drop (i + 1)) c

/-- All tool-call ids issued in a conversation, in order. -/
def allCalledIds (ms : List Msg) : List String := ms.flatMap calledIds

/-- Claim part 1: every tool-role message has a preceding assistant message
whose tool_calls contain its tool_call_id. -/
def ResultsMatched (ms : List Msg) : Prop :=
  ∀ n c cont, ms[n]? = some (.toolResult c cont) → ∃ m ∈ ms.take n, c ∈ calledIds m

/-- Every issued tool-call id is followed by at most one tool-role message
with that id. -/
def AtMostOnceAnswered (ms : List Msg) : Prop :=
  ∀ i c m, ms[i]? = some m → c ∈ calledIds m → followingResCount ms i c ≤ 1

/-- Claim part 2: every issued tool-call id is followed by exactly one
tool-role message with that id. -/
def ExactlyOnceAnswered (ms : List Msg) : Prop :=
  ∀ i c m, ms[i]? = some m → c ∈ calledIds m → followingResCount ms i c = 1

/-- Structural characterization of the conversations the agent loop
produces: a sequence of user messages, non-empty text-only assistant
messages, and tool batches (an assistant message with calls followed by
the results of the dispatched prefix of its calls). -/
inductive ConvShape (partialBatches : Bool) : List Msg → Prop
  | nil : ConvShape partialBatches []
  | pushUser (ms : List Msg) (t : String) :
      ConvShape partialBatches ms → ConvShape partialBatches (ms ++ [.user t])
  | pushAssistantText (ms : List Msg) (t : String) (h : t ≠ "") :
      ConvShape partialBatches ms → ConvShape partialBatches (ms ++ [.assistantText t])
  | toolBatch (ms : List Msg) (txt : Option String) (tcs : List ToolCallInfo)
      (k : Nat) (outs : List String) (hne : tcs ≠ []) (hk : k ≤ tcs.length)
      (houts : outs.length = k) (hfull : partialBatches = false → k = tcs.length) :
      ConvShape partialBatches ms →
      ConvShape partialBatches
        (ms ++ Msg.assistantCalls txt tcs :: toolResultsFor (tcs.take k) outs)

/-- The round-trip property of the display format over a list of lines:
the formatted list has one display line per content line, the content
after the first pipe of each display line is the original line verbatim,
and parsing the display line recovers the line number `startLine + i` and
the computed hash of the line. -/
def DisplayRoundTrip (lines fmtd : List String) (startLine : Nat) : Prop :=
  fmtd.length = lines.length ∧
  ∀ i (hi : i < lines.length) (hf : i < fmtd.length),
    afterPipe (fmtd.get ⟨i, hf⟩) = lines.get ⟨i, hi⟩ ∧
    parseLineRef (fmtd.get ⟨i, hf⟩) =
      .ok ⟨startLine + i, computeLineHash (startLine + i) (lines.get ⟨i, hi⟩)⟩

/-! ## Concrete inputs used by counterexamples and witnesses -/

/-- n copies of a character. -/
def repChar (c : Char) : Nat → List Char
  | 0 => []
  | n + 1 => c :: repChar c n

/-- A single line of 262145 = MAX_BYTES + 1 ASCII characters. -/
def bigText : String := String.mk (repChar 'a' 262145)

/-- A conversation in which the synthetic id call_0 is issued by two
different assistant messages (as the Ollama adapter produces: it numbers
tool calls call_0, call_1, ... afresh for every response). -/
def c3msgs : List Msg :=
  [.user "u",
   .assistantCalls none [⟨"call_0", "read", "{}"⟩],
   .toolResult "call_0" "r1",
   .assistantCalls none [⟨"call_0", "write", "{}"⟩],
   .toolResult "call_0" "r2"]

/-- A minimal well-formed conversation: one user message, then one tool
batch fully dispatched. -/
def c3okMsgs : List Msg :=
  [.user "u",
   .assistantCalls none [⟨"call_1", "read", "{}"⟩],
   .toolResult "call_1" "ok"]

/-- A minimal conversation with one tool call and its result. -/
def c5msgs : List Msg :=
  [.assistantCalls none [⟨"call_0", "read", "{}"⟩],
   .toolResult "call_0" "file contents"]

/-! # Theorems -/

/-! ## Generic helper lemmas -/

theorem repChar_length (c : Char) : ∀ n, (repChar c n).length = n := by
  intro n
  induction n with
  | zero => rfl
  | succ n ih => simpa [repChar] using ih

theorem bigText_length : bigText.length = 262145 := by
  show (repChar 'a' 262145).length = 262145
  exact repChar_length 'a' 262145

theorem foldl_append_length (l : List String) :
    ∀ acc : String,
      (List.foldl (fun r s => r ++ s) acc l).length =
        acc.length + (l.map String.length).sum := by
  induction l with
  | nil => intro acc; simp
  | cons s t ih =>
    intro acc
    simp only [List.foldl_cons, ih, List.map_cons, List.sum_cons,
      String.length_append]
    omega

theorem join_length (l : List String) :
    (String.join l).length = (l.map String.length).sum := by
  simpa [String.join] using foldl_append_length l ""

/-- C10: applying an empty batch succeeds and returns the content unchanged
with zero diff counts — no validation, no mismatch error, no mutation. -/
theorem c10_empty_batch_noop (content : String) :
    applyHashlineEdits content [] = .ok ⟨content, 0, 0⟩ := rfl

/-! ## C4: process output buffering -/

theorem feed_single (s : String) :
    feedChunks ⟨[], 0⟩ [s] = ⟨[s], s.length⟩ := by
  show pushChunk ⟨[], 0⟩ s = _
  rw [pushChunk]
  rw [if_pos (by decide : (OutBuffer.mk [] 0).outputLen < MAX_OUTPUT)]
  simp

theorem totalBuffered_single (s : String) :
    totalBuffered ⟨[s], s.length⟩ = s.length := by
  show (String.join [s]).length = s.length
  rw [join_length]
  simp

/-- C4 counterexample: one decoded chunk of MAX_OUTPUT + 1 characters is
buffered whole, so the total buffered for the process exceeds MAX_OUTPUT. -/
theorem c4_counterexample :
    MAX_OUTPUT < totalBuffered (feedChunks ⟨[], 0⟩ [bigText]) := by
  rw [feed_single bigText, totalBuffered_single bigText, bigText_length]
  decide

/-- C4 (amended): a chunk is dropped whenever the buffered length has
already reached MAX_OUTPUT, so the total buffered stays below MAX_OUTPUT
plus the size of the largest single stream chunk. -/
theorem c4_buffer_bounded (chunks : List String) (c : Nat) (st : OutBuffer)
    (t : String) (hc : ∀ ch ∈ chunks, ch.length ≤ c)
    (hfull : MAX_OUTPUT ≤ st.outputLen) :
    totalBuffered (feedChunks ⟨[], 0⟩ chunks) < MAX_OUTPUT + c ∧
      pushChunk st t = st := by
  constructor
  · have key : ∀ (cs : List String) (b : OutBuffer),
        (∀ ch ∈ cs, ch.length ≤ c) →
        totalBuffered b = b.outputLen → b.outputLen < MAX_OUTPUT + c →
        totalBuffered (feedChunks b cs) < MAX_OUTPUT + c := by
      intro cs
      induction cs with
      | nil => intro b _ hlen hlt; simpa [feedChunks, hlen] using hlt
      | cons ch rest ih =>
        intro b hcs hlen hlt
        have hch : ch.length ≤ c := hcs ch (List.mem_cons_self ch rest)
        have hrest : ∀ x ∈ rest, x.length ≤ c :=
          fun x hx => hcs x (List.mem_cons_of_mem ch hx)
        show totalBuffered (feedChunks (pushChunk b ch) rest) < MAX_OUTPUT + c
        by_cases hb : b.outputLen < MAX_OUTPUT
        · have hpush : pushChunk b ch =
              ⟨b.outputChunks ++ [ch], b.outputLen + ch.length⟩ := by
            simp [pushChunk, hb]
          apply ih _ hrest
          · rw [hpush]
            show (String.join (b.outputChunks ++ [ch])).length = b.outputLen + ch.length
            rw [join_length, List.map_append, List.sum_append]
            have : (b.outputChunks.map String.length).sum = b.outputLen := by
              rw [← join_length]; exact hlen
            simp [this]
          · rw [hpush]
            show b.outputLen + ch.length < MAX_OUTPUT + c
            omega
        · have hpush : pushChunk b ch = b := by simp [pushChunk, hb]
          rw [hpush]
          exact ih _ hrest hlen hlt
    apply key chunks ⟨[], 0⟩ hc
    · rfl
    · show 0 < MAX_OUTPUT + c
      simp [MAX_OUTPUT]
  · simp [pushChunk]
    intro h
    omega

/-! ## C5: Ollama tool messages -/

/-- C5: the Ollama adapter resolves the tool name of a tool result by
walking back to the issuing assistant message ("read" here), but the
message it actually emits is a bare tool-role message without a tool_name
field. -/
theorem c5_tool_name_dropped :
    convertToOllamaMessages c5msgs =
      [⟨"assistant", "", some [⟨"read", "{}"⟩], none⟩,
       ⟨"tool", "file contents", none, none⟩] ∧
    resolveToolName (c5msgs.take 1) "call_0" = "read" := by
  constructor
  · rfl
  · rfl

/-! ## C8: handover frame -/

/-- C8: a handover never touches the system prompt; on cancellation or an
empty summary the pushed summarize prompt is popped, leaving the state
exactly as before; on success only the conversation is replaced (by the
conversation the restarted run builds from the composed prompt). -/
theorem c8_handover_frame (s : AgentState) (aborted : Bool) (summary : String)
    (instructions : Option String) (runEff : String → List Msg) :
    (handover s aborted summary instructions runEff).systemPrompt = s.systemPrompt ∧
      handover s aborted summary instructions runEff =
        (if aborted || jsTrim summary = "" then s
         else { messages := runEff (handoverPromptText summary instructions),
                systemPrompt := s.systemPrompt }) := by
  have hcancel :
      ({ s with messages := (s.messages ++ [Msg.user summarizePromptText]).dropLast }
        : AgentState) = s := by
    rw [List.dropLast_concat]
  unfold handover
  by_cases h : (aborted || jsTrim summary = "") = true
  · rw [if_pos h, if_pos h]
    exact ⟨by rw [hcancel], hcancel⟩
  · rw [if_neg h, if_neg h]
    exact ⟨rfl, rfl⟩


/-! ## C9: hashline prefix stripping -/

theorem all_takeWhile {p : Char → Bool} : ∀ cs : List Char,
    (cs.takeWhile p).all p = true := by
  intro cs
  induction cs with
  | nil => rfl
  | cons c rest ih =>
    by_cases h : p c
    · simp [List.takeWhile, h, ih]
    · simp [List.takeWhile, h]

theorem takeWhile_all_append {p : Char → Bool} (ds : List Char) (x : Char)
    (rest : List Char) (hall : ds.all p = true) (hx : p x = false) :
    (ds ++ x :: rest).takeWhile p = ds := by
  induction ds with
  | nil => simp [List.takeWhile, hx]
  | cons d t ih =>
    simp only [List.all_cons, Bool.and_eq_true] at hall
    simp [List.takeWhile, hall.1, ih hall.2]

theorem hexPipeAt_some (k : Nat) (cs rest : List Char)
    (h : hexPipeAt k cs = some rest) :
    cs = cs.take k ++ '|' :: rest ∧ (cs.take k).all isHexC = true ∧
      (cs.take k).length = k := by
  unfold hexPipeAt at h
  by_cases hcond : (cs.take k).length = k ∧ (cs.take k).all isHexC
  · rw [if_pos hcond] at h
    rcases hdk : cs.drop k with _ | ⟨c, tail⟩ <;> rw [hdk] at h
    · cases h
    · by_cases hc : c = '|'
      · subst hc
        simp only [] at h
        injection h with h
        subst h
        refine ⟨?_, by simpa using hcond.2, hcond.1⟩
        conv_lhs => rw [← List.take_append_drop k cs]
        rw [hdk]
      · exfalso
        revert h
        split
        · rename_i heq
          rw [List.cons.injEq] at heq
          exact fun _ => hc heq.1
        · intro h; cases h
  · rw [if_neg hcond] at h
    cases h

theorem hexPipe_some : ∀ (n : Nat) (cs rest : List Char),
    hexPipe n cs = some rest →
    ∃ k, 1 ≤ k ∧ k ≤ n ∧ hexPipeAt k cs = some rest := by
  intro n
  induction n with
  | zero => intro cs rest h; cases h
  | succ n ih =>
    intro cs rest h
    unfold hexPipe at h
    revert h
    split
    · rename_i r hat
      intro h
      injection h with h
      subst h
      exact ⟨n + 1, by omega, le_refl _, hat⟩
    · intro h
      obtain ⟨k, h1, h2, h3⟩ := ih cs rest h
      exact ⟨k, h1, by omega, h3⟩

theorem drop_takeWhile_len (p : Char → Bool) : ∀ cs : List Char,
    cs.drop (cs.takeWhile p).length = cs.dropWhile p := by
  intro cs
  induction cs with
  | nil => rfl
  | cons c t ih =>
    by_cases h : p c
    · simp [List.takeWhile, List.dropWhile, h, ih]
    · simp [List.takeWhile, List.dropWhile, h]

theorem matchHashlinePfx_sound (cs rest : List Char)
    (h : matchHashlinePfx cs = some rest) :
    ∃ pre, IsDisplayPfx pre ∧ cs = pre ++ rest := by
  simp only [matchHashlinePfx] at h
  split at h
  · cases h
  · rename_i hds
    revert h
    split
    · rename_i hx hdrop
      intro h
      obtain ⟨k, hk1, hk4, hat⟩ := hexPipe_some 4 hx rest h
      obtain ⟨hxeq, hxhex, hxlen⟩ := hexPipeAt_some k hx rest hat
      refine ⟨cs.takeWhile isDigitC ++ ':' :: (hx.take k ++ ['|']), ?_, ?_⟩
      · exact ⟨cs.takeWhile isDigitC, hx.take k, by simp, hds, all_takeWhile cs,
          hxhex, by omega, by omega⟩
      · have hsplit : cs.takeWhile isDigitC ++ cs.dropWhile isDigitC = cs :=
          List.takeWhile_append_dropWhile isDigitC cs
        conv_lhs => rw [← hsplit]
        have hdw : cs.dropWhile isDigitC = ':' :: hx := by
          rw [← drop_takeWhile_len isDigitC cs]
          exact hdrop
        rw [hdw]
        simp only [List.cons_append, List.append_assoc, List.nil_append]
        rw [← hxeq]
    · intro h; cases h

theorem hexPipe_isSome_of : ∀ (n k : Nat) (cs : List Char), k ≤ n → 1 ≤ k →
    (hexPipeAt k cs).isSome = true → (hexPipe n cs).isSome = true := by
  intro n
  induction n with
  | zero => intro k cs hk h1 _; omega
  | succ n ih =>
    intro k cs hk h1 hsome
    unfold hexPipe
    split
    · rfl
    · rename_i hnone
      rcases Nat.lt_or_ge k (n + 1) with hlt | hge
      · exact ih k cs (by omega) h1 hsome
      · have hkeq : k = n + 1 := by omega
        subst hkeq
        rw [hnone] at hsome
        cases hsome

theorem matchHashlinePfx_complete (pre rest : List Char) (hpre : IsDisplayPfx pre) :
    (matchHashlinePfx (pre ++ rest)).isSome = true := by
  obtain ⟨ds, hx, heq, hne, hdig, hhex, hlen1, hlen4⟩ := hpre
  subst heq
  have hsplit : (ds ++ ':' :: (hx ++ ['|'])) ++ rest = ds ++ ':' :: (hx ++ '|' :: rest) := by
    simp
  rw [hsplit]
  simp only [matchHashlinePfx]
  have htw : (ds ++ ':' :: (hx ++ '|' :: rest)).takeWhile isDigitC = ds :=
    takeWhile_all_append ds ':' (hx ++ '|' :: rest) hdig (by decide)
  rw [htw]
  rw [if_neg hne]
  have hdrop : (ds ++ ':' :: (hx ++ '|' :: rest)).drop ds.length =
      ':' :: (hx ++ '|' :: rest) := List.drop_left ds _
  rw [hdrop]
  have hat : hexPipeAt hx.length (hx ++ '|' :: rest) = some rest := by
    unfold hexPipeAt
    rw [if_pos ⟨by simp [List.take_left], by simp [List.take_left, hhex]⟩]
    rw [List.drop_left]
    rfl
  exact hexPipe_isSome_of 4 hx.length _ hlen4 hlen1 (by rw [hat]; rfl)

theorem parseEdit_newLines (e : HashlineEdit) (p : ParsedEdit)
    (hp : parseEdit e = .ok p) :
    p.newLines = stripHashlinePrefixes (rawNewLines e) := by
  cases e with
  | set_line a t =>
    simp only [parseEdit] at hp
    split at hp
    · cases hp
    · injection hp with hp
      subst hp
      rfl
  | replace_lines sa ea t =>
    simp only [parseEdit] at hp
    split at hp
    · cases hp
    · split at hp
      · cases hp
      · split at hp
        · cases hp
        · injection hp with hp
          subst hp
          rfl
  | insert_after a t =>
    simp only [parseEdit] at hp
    split at hp
    · cases hp
    · split at hp
      · cases hp
      · injection hp with hp
        subst hp
        rfl

/-- C9: the replacement lines an edit applies are exactly the split of its
new text with hashline display prefixes stripped when at least half of the
non-empty lines carry one (and kept verbatim otherwise); a line "begins
with a valid display prefix" exactly when the stripper fires on it, and
stripping removes exactly such a prefix. -/
theorem c9_prefix_stripping (e : HashlineEdit) (p : ParsedEdit)
    (cs rest pre2 rest2 : List Char) (l : String)
    (hp : parseEdit e = .ok p)
    (hm : matchHashlinePfx cs = some rest)
    (hpre : IsDisplayPfx pre2)
    (hno : matchHashlinePfx l.data = none) :
    p.newLines =
      (if 0 < nonEmptyCount (rawNewLines e) ∧
          nonEmptyCount (rawNewLines e) ≤ 2 * pfxCount (rawNewLines e)
       then (rawNewLines e).map stripPfx1 else rawNewLines e) ∧
    (∃ pre, IsDisplayPfx pre ∧ cs = pre ++ rest ∧
      stripPfx1 (String.mk cs) = String.mk rest) ∧
    (matchHashlinePfx (pre2 ++ rest2)).isSome = true ∧
    stripPfx1 l = l := by
  refine ⟨?_, ?_, matchHashlinePfx_complete pre2 rest2 hpre, ?_⟩
  · rw [parseEdit_newLines e p hp]
    rfl
  · obtain ⟨pre, h1, h2⟩ := matchHashlinePfx_sound cs rest hm
    exact ⟨pre, h1, h2, by simp [stripPfx1, hm]⟩
  · simp [stripPfx1, hno]

theorem c9_prefix_stripping_witness :
    (⟨.insert, 1, 1, ⟨1, "d9"⟩, none, ["x", "y"]⟩ : ParsedEdit).newLines =
      (if 0 < nonEmptyCount (rawNewLines (.insert_after "1:d9" "1:aa|x\n2:bb|y")) ∧
          nonEmptyCount (rawNewLines (.insert_after "1:d9" "1:aa|x\n2:bb|y")) ≤
            2 * pfxCount (rawNewLines (.insert_after "1:d9" "1:aa|x\n2:bb|y"))
       then (rawNewLines (.insert_after "1:d9" "1:aa|x\n2:bb|y")).map stripPfx1
       else rawNewLines (.insert_after "1:d9" "1:aa|x\n2:bb|y")) ∧
    (∃ pre, IsDisplayPfx pre ∧ ("12:ab|tail").data = pre ++ ("tail").data ∧
      stripPfx1 (String.mk ("12:ab|tail").data) = String.mk ("tail").data) ∧
    (matchHashlinePfx (['3', ':', '4', '|'] ++ ['x'])).isSome = true ∧
    stripPfx1 "plain" = "plain" :=
  c9_prefix_stripping (.insert_after "1:d9" "1:aa|x\n2:bb|y")
    ⟨.insert, 1, 1, ⟨1, "d9"⟩, none, ["x", "y"]⟩
    ("12:ab|tail").data ("tail").data ['3', ':', '4', '|'] ['x'] "plain"
    (by decide) (by decide)
    ⟨['3'], ['4'], by decide, by decide, by decide, by decide, by decide, by decide⟩
    (by decide)

theorem c4_buffer_bounded_witness :
    totalBuffered (feedChunks ⟨[], 0⟩ ["ab", "cd"]) < MAX_OUTPUT + 2 ∧
      pushChunk ⟨["x"], MAX_OUTPUT⟩ "y" = ⟨["x"], MAX_OUTPUT⟩ :=
  c4_buffer_bounded ["ab", "cd"] 2 ⟨["x"], MAX_OUTPUT⟩ "y" (by decide) (by decide)

/-! ## C1: atomicity and completeness of mismatch reporting -/

theorem validateLineRef_ok (r : LineRef) (fl : List String)
    (h1 : 1 ≤ r.line) (h2 : r.line ≤ fl.length) :
    validateLineRef r fl = .ok (optMismatch r fl) := by
  unfold validateLineRef optMismatch
  rw [if_neg (by omega : ¬(r.line < 1 ∨ fl.length < r.line))]
  by_cases h : computeLineHash r.line (fl.getD (r.line - 1) "") ≠ lowerStr r.hash
  · rw [if_pos h, if_pos h]
    rfl
  · rw [if_neg h, if_neg h]

theorem staleMismatches_cons (p : ParsedEdit) (ps : List ParsedEdit) (fl : List String) :
    staleMismatches (p :: ps) fl =
      (optMismatch p.startRef fl).toList ++
        ((p.endRef.map (fun r => optMismatch r fl)).getD none).toList ++
        staleMismatches ps fl := by
  unfold staleMismatches refsOf
  rw [List.flatMap_cons, List.filterMap_append]
  congr 1
  unfold refsOfEdit
  cases hend : p.endRef with
  | none =>
    cases hopt : optMismatch p.startRef fl <;>
      simp [List.filterMap_cons, hopt]
  | some r2 =>
    cases hopt : optMismatch p.startRef fl <;>
      cases hopt2 : optMismatch r2 fl <;>
        simp [List.filterMap_cons, hopt, hopt2]

theorem collect_ok (ps : List ParsedEdit) (fl : List String)
    (hrange : ∀ r ∈ refsOf ps, 1 ≤ r.line ∧ r.line ≤ fl.length) :
    collectMismatches ps fl = .ok (staleMismatches ps fl) := by
  induction ps with
  | nil => rfl
  | cons p ps ih =>
    have hstart : p.startRef ∈ refsOf (p :: ps) := by
      unfold refsOf refsOfEdit
      simp
    have hs := hrange p.startRef hstart
    have hrest : ∀ r ∈ refsOf ps, 1 ≤ r.line ∧ r.line ≤ fl.length := by
      intro r hrmem
      apply hrange
      unfold refsOf at hrmem ⊢
      rw [List.flatMap_cons]
      exact List.mem_append_right _ hrmem
    unfold collectMismatches
    rw [validateLineRef_ok p.startRef fl hs.1 hs.2]
    rw [staleMismatches_cons]
    cases hend : p.endRef with
    | none =>
      show ((match validateEndRef p fl with
        | Except.error e => Except.error e
        | Except.ok m2 =>
          match collectMismatches ps fl with
          | Except.error e => Except.error e
          | Except.ok rest =>
            Except.ok ((optMismatch p.startRef fl).toList ++ m2.toList ++ rest)) :
          Except EditErr (List HashMismatch)) = _
      have hv : validateEndRef p fl = .ok none := by
        unfold validateEndRef
        rw [hend]
      rw [hv, ih hrest]
      rfl
    | some r2 =>
      have hr2 : r2 ∈ refsOf (p :: ps) := by
        unfold refsOf refsOfEdit
        rw [List.flatMap_cons, hend]
        simp
      have h2 := hrange r2 hr2
      show ((match validateEndRef p fl with
        | Except.error e => Except.error e
        | Except.ok m2 =>
          match collectMismatches ps fl with
          | Except.error e => Except.error e
          | Except.ok rest =>
            Except.ok ((optMismatch p.startRef fl).toList ++ m2.toList ++ rest)) :
          Except EditErr (List HashMismatch)) = _
      have hv : validateEndRef p fl = .ok (optMismatch r2 fl) := by
        unfold validateEndRef
        rw [hend]
        exact validateLineRef_ok r2 fl h2.1 h2.2
      rw [hv, ih hrest]
      rfl

theorem parseAll_nil_of (edits : List HashlineEdit)
    (hp : parseAll edits = .ok []) : edits = [] := by
  cases edits with
  | nil => rfl
  | cons e es =>
    exfalso
    unfold parseAll at hp
    split at hp
    · cases hp
    · split at hp
      · cases hp
      · injection hp with hp
        cases hp

/-- C1: when every anchor of a parsed batch is in range and at least one is
stale, applyHashlineEdits fails with a single HashMismatchError listing a
record for every stale anchor (in validation order), and the edit tool
writes nothing, leaving the file byte-identical. -/
theorem c1_stale_batch_atomic (content : String) (edits : List HashlineEdit)
    (ps : List ParsedEdit) (r : LineRef)
    (hp : parseAll edits = .ok ps)
    (hrange : ∀ r' ∈ refsOf ps, 1 ≤ r'.line ∧ r'.line ≤ (splitNl content).length)
    (hr : r ∈ refsOf ps) (hst : IsStaleRef r (splitNl content)) :
    applyHashlineEdits content edits =
      .error (.hashMismatch (staleMismatches ps (splitNl content)) (splitNl content)) ∧
    mismatchOf r (splitNl content) ∈ staleMismatches ps (splitNl content) ∧
    editToolWrite content edits = none := by
  have hmem : mismatchOf r (splitNl content) ∈ staleMismatches ps (splitNl content) := by
    apply List.mem_filterMap.mpr
    refine ⟨r, hr, ?_⟩
    unfold optMismatch
    exact if_pos hst
  have hne : edits ≠ [] := by
    intro h
    subst h
    injection hp with hp
    subst hp
    simp [refsOf] at hr
  have hlen : ¬ edits.length = 0 := by
    intro h
    exact hne (List.eq_nil_of_length_eq_zero h)
  have happly : applyHashlineEdits content edits =
      .error (.hashMismatch (staleMismatches ps (splitNl content)) (splitNl content)) := by
    unfold applyHashlineEdits
    rw [if_neg hlen, hp]
    show (match collectMismatches ps (splitNl content) with
      | Except.error e => Except.error e
      | Except.ok mismatches =>
        if 0 < mismatches.length then
          Except.error (EditErr.hashMismatch mismatches (splitNl content))
        else
          Except.ok (ApplyResult.mk (joinNl (applyParsed (splitNl content) (sortEdits ps)).1)
            (applyParsed (splitNl content) (sortEdits ps)).2.1
            (applyParsed (splitNl content) (sortEdits ps)).2.2)) = _
    rw [collect_ok ps (splitNl content) hrange]
    show (if 0 < (staleMismatches ps (splitNl content)).length then _ else _) = _
    rw [if_pos (List.length_pos.mpr (List.ne_nil_of_mem hmem))]
  refine ⟨happly, hmem, ?_⟩
  unfold editToolWrite
  rw [if_neg hlen, happly]

theorem c1_stale_batch_atomic_witness :
    applyHashlineEdits "foo\nbar"
        [.set_line "1:d9" "FOO", .set_line "2:aa" "BAR"] =
      .error (.hashMismatch
        (staleMismatches
          [⟨.set, 1, 1, ⟨1, "d9"⟩, none, ["FOO"]⟩,
           ⟨.set, 2, 2, ⟨2, "aa"⟩, none, ["BAR"]⟩] (splitNl "foo\nbar"))
        (splitNl "foo\nbar")) ∧
    mismatchOf ⟨2, "aa"⟩ (splitNl "foo\nbar") ∈
      staleMismatches
        [⟨.set, 1, 1, ⟨1, "d9"⟩, none, ["FOO"]⟩,
         ⟨.set, 2, 2, ⟨2, "aa"⟩, none, ["BAR"]⟩] (splitNl "foo\nbar") ∧
    editToolWrite "foo\nbar" [.set_line "1:d9" "FOO", .set_line "2:aa" "BAR"] = none :=
  c1_stale_batch_atomic "foo\nbar" [.set_line "1:d9" "FOO", .set_line "2:aa" "BAR"]
    [⟨.set, 1, 1, ⟨1, "d9"⟩, none, ["FOO"]⟩,
     ⟨.set, 2, 2, ⟨2, "aa"⟩, none, ["BAR"]⟩] ⟨2, "aa"⟩
    (by decide) (by decide) (by decide) (by unfold IsStaleRef; decide)

/-! ## C2: read tool byte cap -/

theorem mem_repChar (c : Char) : ∀ n x, x ∈ repChar c n → x = c := by
  intro n
  induction n with
  | zero => intro x hx; cases hx
  | succ n ih =>
    intro x hx
    rcases List.mem_cons.mp hx with h | h
    · exact h
    · exact ih x h

theorem splitChars_single (cs : List Char) (h : ∀ x ∈ cs, x ≠ '\n') :
    splitChars cs = [cs] := by
  induction cs with
  | nil => rfl
  | cons c rest ih =>
    have hc : c ≠ '\n' := h c (List.mem_cons_self c rest)
    have hrest := ih (fun x hx => h x (List.mem_cons_of_mem c hx))
    unfold splitChars
    rw [if_neg hc, hrest]

theorem splitNl_bigText : splitNl bigText = [bigText] := by
  unfold splitNl
  have : splitChars bigText.data = [bigText.data] := by
    apply splitChars_single
    intro x hx
    rw [mem_repChar 'a' 262145 x hx]
    decide
  rw [this]
  rfl

theorem utf8BytesL_cons (c : Char) (cs : List Char) :
    utf8BytesL (c :: cs) = encodeChar c ++ utf8BytesL cs := by
  unfold utf8BytesL
  rw [List.flatMap_cons]

theorem utf8Bytes_bigText_length : (utf8Bytes bigText).length = 262145 := by
  show (utf8BytesL (repChar 'a' 262145)).length = 262145
  have key : ∀ n, (utf8BytesL (repChar 'a' n)).length = n := by
    intro n
    induction n with
    | zero => rfl
    | succ n ih =>
      show (utf8BytesL ('a' :: repChar 'a' n)).length = n + 1
      rw [utf8BytesL_cons, List.length_append, ih]
      have : (encodeChar 'a').length = 1 := by decide
      omega
  exact key 262145

theorem utf8Bytes_append_length (x y : String) :
    (utf8Bytes (x ++ y)).length = (utf8Bytes x).length + (utf8Bytes y).length := by
  unfold utf8Bytes utf8BytesL
  rw [String.data_append, List.flatMap_append, List.length_append]

theorem readTool_single_overflow (s : String)
    (hnl : splitNl s = [s]) (hb : MAX_BYTES < (utf8Bytes s).length) :
    readTool s none none =
      .ok (formatHashLines s 1 ++ "\n[Output truncated at " ++ natRepr MAX_BYTES ++
        " bytes]") := by
  unfold readTool
  rw [hnl]
  simp only [List.length_cons, List.length_nil, List.drop_zero, Option.getD,
    joinNl]
  rw [if_neg (by norm_num), if_pos hb,
    if_neg (by norm_num [List.length_take, MAX_LINES])]

theorem formatHashLines_bigText :
    formatHashLines bigText 1 =
      natRepr 1 ++ ":" ++ computeLineHash 1 bigText ++ "|" ++ bigText := by
  unfold formatHashLines
  rw [splitNl_bigText]
  rfl

/-- C2: reading a single-line file one byte over MAX_BYTES returns the full
hashline-formatted content with a truncation notice appended, but the
output itself is longer than MAX_BYTES — nothing is truncated. -/
theorem c2_read_truncation_missing :
    readTool bigText none none =
      .ok (formatHashLines bigText 1 ++ "\n[Output truncated at " ++
        natRepr MAX_BYTES ++ " bytes]") ∧
    MAX_BYTES <
      (utf8Bytes (formatHashLines bigText 1 ++ "\n[Output truncated at " ++
        natRepr MAX_BYTES ++ " bytes]")).length := by
  have hbig : (utf8Bytes bigText).length = 262145 := utf8Bytes_bigText_length
  refine ⟨readTool_single_overflow bigText splitNl_bigText (by rw [hbig]; decide), ?_⟩
  rw [utf8Bytes_append_length, utf8Bytes_append_length, utf8Bytes_append_length,
    formatHashLines_bigText, utf8Bytes_append_length, utf8Bytes_append_length,
    utf8Bytes_append_length, utf8Bytes_append_length]
  have hM : MAX_BYTES = 262144 := rfl
  omega

/-! ## C6: display format round trip -/

theorem getD_mem_cons : ∀ (l : List Char) (n : Nat) (d : Char), l.getD n d ∈ d :: l := by
  intro l
  induction l with
  | nil =>
    intro n d
    show d ∈ [d]
    exact List.mem_cons_self d []
  | cons x xs ih =>
    intro n d
    cases n with
    | zero => exact List.mem_cons_of_mem d (List.mem_cons_self x xs)
    | succ n =>
      show xs.getD n d ∈ d :: x :: xs
      rcases List.mem_cons.mp (ih n d) with h | h
      · rw [h]
        exact List.mem_cons_self d (x :: xs)
      · exact List.mem_cons_of_mem d (List.mem_cons_of_mem x h)

theorem digitC_spec (n : Nat) :
    isDigitC (digitC n) = true ∧ digitC n ≠ '|' ∧ digitC n ≠ '\n' ∧
      digitC n ≠ ':' ∧ isJsWs (digitC n) = false := by
  have hall : ∀ c ∈ ('0' :: digitChars),
      isDigitC c = true ∧ c ≠ '|' ∧ c ≠ '\n' ∧ c ≠ ':' ∧ isJsWs c = false := by
    decide
  exact hall _ (getD_mem_cons digitChars n '0')

theorem hexC_spec (n : Nat) :
    isHexC (hexDigitLower n) = true ∧ toLowerC (hexDigitLower n) = hexDigitLower n ∧
      hexDigitLower n ≠ '|' ∧ hexDigitLower n ≠ '\n' ∧
      isJsWs (hexDigitLower n) = false := by
  have hall : ∀ c ∈ ('0' :: hexChars),
      isHexC c = true ∧ toLowerC c = c ∧ c ≠ '|' ∧ c ≠ '\n' ∧ isJsWs c = false := by
    decide
  exact hall _ (getD_mem_cons hexChars n '0')

theorem natDigitsAux_spec : ∀ (fuel n : Nat), n < fuel →
    (natDigitsAux fuel n).all isDigitC = true ∧ natDigitsAux fuel n ≠ [] := by
  intro fuel
  induction fuel with
  | zero => intro n h; omega
  | succ fuel ih =>
    intro n h
    unfold natDigitsAux
    by_cases h10 : n < 10
    · rw [if_pos h10]
      exact ⟨by simp [(digitC_spec n).1], by simp⟩
    · rw [if_neg h10]
      have hdiv : n / 10 < fuel := by
        have : n / 10 < n := Nat.div_lt_self (by omega) (by omega)
        omega
      obtain ⟨hall, hne⟩ := ih (n / 10) hdiv
      constructor
      · rw [List.all_append, hall]
        simp [(digitC_spec (n % 10)).1]
      · simp

theorem digitsToNat_snoc (ds : List Char) (c : Char) :
    digitsToNat (ds ++ [c]) = digitsToNat ds * 10 + (c.toNat - 48) := by
  unfold digitsToNat
  rw [List.foldl_append]
  rfl

theorem digitC_toNat (d : Nat) (hd : d < 10) : (digitC d).toNat - 48 = d := by
  interval_cases d <;> rfl

theorem natDigitsAux_val : ∀ (fuel n : Nat), n < fuel →
    digitsToNat (natDigitsAux fuel n) = n := by
  intro fuel
  induction fuel with
  | zero => intro n h; omega
  | succ fuel ih =>
    intro n h
    unfold natDigitsAux
    by_cases h10 : n < 10
    · rw [if_pos h10]
      show digitsToNat ([] ++ [digitC n]) = n
      rw [digitsToNat_snoc, digitC_toNat n h10]
      show 0 * 10 + n = n
      omega
    · rw [if_neg h10]
      have hdiv : n / 10 < fuel := by
        have : n / 10 < n := Nat.div_lt_self (by omega) (by omega)
        omega
      rw [digitsToNat_snoc, ih (n / 10) hdiv, digitC_toNat (n % 10) (by omega)]
      omega

theorem natRepr_val (n : Nat) : digitsToNat (natRepr n).data = n :=
  natDigitsAux_val (n + 1) n (by omega)

theorem natRepr_all_digits (n : Nat) :
    (natRepr n).data.all isDigitC = true ∧ (natRepr n).data ≠ [] :=
  natDigitsAux_spec (n + 1) n (by omega)

theorem hash_shape (num : Nat) (l : String) :
    ∃ c1 c2, (computeLineHash num l).data = [c1, c2] ∧
      (isHexC c1 = true ∧ toLowerC c1 = c1 ∧ c1 ≠ '|' ∧ c1 ≠ '\n' ∧ isJsWs c1 = false) ∧
      (isHexC c2 = true ∧ toLowerC c2 = c2 ∧ c2 ≠ '|' ∧ c2 ≠ '\n' ∧ isJsWs c2 = false) := by
  unfold computeLineHash toHex2
  refine ⟨_, _, rfl, hexC_spec _, hexC_spec _⟩

theorem dropThroughPipe_split (pre rest : List Char) (hpre : ∀ c ∈ pre, c ≠ '|') :
    dropThroughPipe (pre ++ '|' :: rest) = rest := by
  induction pre with
  | nil => simp [dropThroughPipe]
  | cons c t ih =>
    have hc : c ≠ '|' := hpre c (List.mem_cons_self c t)
    show dropThroughPipe (c :: (t ++ '|' :: rest)) = rest
    unfold dropThroughPipe
    rw [if_neg hc]
    exact ih (fun x hx => hpre x (List.mem_cons_of_mem c hx))

theorem contains_eq_false_of (rest : List Char) (h : ∀ c ∈ rest, c ≠ '\n') :
    rest.contains '\n' = false := by
  induction rest with
  | nil => rfl
  | cons c t ih =>
    have hc : c ≠ '\n' := h c (List.mem_cons_self c t)
    simp only [List.contains_cons]
    rw [ih (fun x hx => h x (List.mem_cons_of_mem c hx))]
    have : ¬('\n' = c) := fun he => hc he.symm
    simp [this]

theorem cutPipe_split (pre rest : List Char) (hpre : ∀ c ∈ pre, c ≠ '|')
    (hrest : ∀ c ∈ rest, c ≠ '\n') :
    cutPipe (pre ++ '|' :: rest) = pre := by
  induction pre with
  | nil =>
    show cutPipe ('|' :: rest) = []
    unfold cutPipe
    rw [if_pos rfl, contains_eq_false_of rest hrest]
    rfl
  | cons c t ih =>
    have hc : c ≠ '|' := hpre c (List.mem_cons_self c t)
    show cutPipe (c :: (t ++ '|' :: rest)) = c :: t
    unfold cutPipe
    rw [if_neg hc, ih (fun x hx => hpre x (List.mem_cons_of_mem c hx))]

theorem dropWhile_eq_self_of (p : Char → Bool) (cs : List Char)
    (h : ∀ c ∈ cs, p c = false) : cs.dropWhile p = cs := by
  cases cs with
  | nil => rfl
  | cons c t =>
    rw [List.dropWhile_cons_of_neg]
    simp [h c (List.mem_cons_self c t)]

theorem jsTrim_id (cs : List Char) (h : ∀ c ∈ cs, isJsWs c = false) :
    jsTrim (String.mk cs) = String.mk cs := by
  unfold jsTrim
  show String.mk (((cs.dropWhile isJsWs).reverse.dropWhile isJsWs).reverse) = _
  rw [dropWhile_eq_self_of isJsWs cs h]
  rw [dropWhile_eq_self_of isJsWs cs.reverse
    (fun c hc => h c (List.mem_reverse.mp hc))]
  rw [List.reverse_reverse]

theorem matchAnchor_eval (ds hx : List Char) (hne : ds ≠ [])
    (hdig : ds.all isDigitC = true) (hhex : hx.all isHexC = true)
    (h1 : 1 ≤ hx.length) (h4 : hx.length ≤ 4) :
    matchAnchor (ds ++ ':' :: hx) = some (ds, hx) := by
  unfold matchAnchor
  have htw : (ds ++ ':' :: hx).takeWhile isDigitC = ds :=
    takeWhile_all_append ds ':' hx hdig (by decide)
  rw [htw, if_neg hne, List.drop_left]
  show (if hx.all isHexC ∧ 1 ≤ hx.length ∧ hx.length ≤ 4
    then some (ds, hx) else none) = some (ds, hx)
  exact if_pos ⟨hhex, h1, h4⟩

theorem lowerStr_id (s : String) (h : ∀ c ∈ s.data, toLowerC c = c) :
    lowerStr s = s := by
  unfold lowerStr
  rw [List.map_congr_left h]
  show String.mk (s.data.map (fun a => a)) = s
  rw [show s.data.map (fun a => a) = s.data from List.map_id' s.data]

theorem mk_data (s : String) : String.mk s.data = s := rfl

theorem display_line_data (num : Nat) (l : String) :
    (natRepr num ++ ":" ++ computeLineHash num l ++ "|" ++ l).data =
      ((natRepr num).data ++ ':' :: (computeLineHash num l).data) ++ '|' :: l.data := by
  simp [String.data_append, List.append_assoc]

theorem natDigitsAux_chars : ∀ (fuel n : Nat), ∀ c ∈ natDigitsAux fuel n,
    ∃ d, c = digitC d := by
  intro fuel
  induction fuel with
  | zero => intro n c hc; cases hc
  | succ fuel ih =>
    intro n c hc
    unfold natDigitsAux at hc
    by_cases h10 : n < 10
    · rw [if_pos h10] at hc
      rcases List.mem_cons.mp hc with h | h
      · exact ⟨n, h⟩
      · cases h
    · rw [if_neg h10] at hc
      rcases List.mem_append.mp hc with h | h
      · exact ih (n / 10) c h
      · rcases List.mem_cons.mp h with h' | h'
        · exact ⟨n % 10, h'⟩
        · cases h'

theorem fmt_line_parses (num : Nat) (hn : 1 ≤ num) (l : String)
    (hl : ∀ c ∈ l.data, c ≠ '\n') :
    afterPipe (natRepr num ++ ":" ++ computeLineHash num l ++ "|" ++ l) = l ∧
    parseLineRef (natRepr num ++ ":" ++ computeLineHash num l ++ "|" ++ l) =
      .ok ⟨num, computeLineHash num l⟩ := by
  obtain ⟨c1, c2, hdata, hc1, hc2⟩ := hash_shape num l
  have hdigits := natRepr_all_digits num
  have hdchars := natDigitsAux_chars (num + 1) num
  have hpre_no_pipe : ∀ c ∈ (natRepr num).data ++ ':' :: (computeLineHash num l).data,
      c ≠ '|' := by
    intro c hc
    rcases List.mem_append.mp hc with h | h
    · obtain ⟨d, hd⟩ := hdchars c h
      rw [hd]
      exact (digitC_spec d).2.1
    · rcases List.mem_cons.mp h with h' | h'
      · subst h'
        decide
      · rw [hdata] at h'
        rcases List.mem_cons.mp h' with h2 | h2
        · subst h2; exact hc1.2.2.1
        · rcases List.mem_cons.mp h2 with h3 | h3
          · subst h3; exact hc2.2.2.1
          · cases h3
  have hnows : ∀ c ∈ (natRepr num).data ++ ':' :: (computeLineHash num l).data,
      isJsWs c = false := by
    intro c hc
    rcases List.mem_append.mp hc with h | h
    · obtain ⟨d, hd⟩ := hdchars c h
      rw [hd]
      exact (digitC_spec d).2.2.2.2
    · rcases List.mem_cons.mp h with h' | h'
      · subst h'
        decide
      · rw [hdata] at h'
        rcases List.mem_cons.mp h' with h2 | h2
        · subst h2; exact hc1.2.2.2.2
        · rcases List.mem_cons.mp h2 with h3 | h3
          · subst h3; exact hc2.2.2.2.2
          · cases h3
  have hlow : lowerStr (computeLineHash num l) = computeLineHash num l := by
    apply lowerStr_id
    intro c hc
    rw [hdata] at hc
    rcases List.mem_cons.mp hc with h | h
    · subst h; exact hc1.2.1
    · rcases List.mem_cons.mp h with h' | h'
      · subst h'; exact hc2.2.1
      · cases h'
  constructor
  · unfold afterPipe
    rw [display_line_data]
    rw [dropThroughPipe_split _ _ hpre_no_pipe]
  · unfold parseLineRef
    rw [display_line_data]
    rw [cutPipe_split _ _ hpre_no_pipe hl]
    rw [jsTrim_id _ hnows]
    show (match matchAnchor (String.mk ((natRepr num).data ++ ':' :: (computeLineHash num l).data)).data with
      | none => Except.error (EditErr.invalidRef
          (natRepr num ++ ":" ++ computeLineHash num l ++ "|" ++ l))
      | some (ds, hx) =>
        if digitsToNat ds < 1 then Except.error (EditErr.lineTooSmall (digitsToNat ds))
        else Except.ok (LineRef.mk (digitsToNat ds) (lowerStr (String.mk hx)))) =
      Except.ok (LineRef.mk num (computeLineHash num l))
    show (match matchAnchor ((natRepr num).data ++ ':' :: (computeLineHash num l).data) with
      | none => Except.error (EditErr.invalidRef
          (natRepr num ++ ":" ++ computeLineHash num l ++ "|" ++ l))
      | some (ds, hx) =>
        if digitsToNat ds < 1 then Except.error (EditErr.lineTooSmall (digitsToNat ds))
        else Except.ok (LineRef.mk (digitsToNat ds) (lowerStr (String.mk hx)))) =
      Except.ok (LineRef.mk num (computeLineHash num l))
    rw [matchAnchor_eval _ _ hdigits.2 hdigits.1
      (by rw [hdata]; simp [hc1.1, hc2.1])
      (by rw [hdata]; show (1:Nat) ≤ 2; omega)
      (by rw [hdata]; show (2:Nat) ≤ 4; omega)]
    show (if digitsToNat (natRepr num).data < 1
      then Except.error (EditErr.lineTooSmall (digitsToNat (natRepr num).data))
      else Except.ok (LineRef.mk (digitsToNat (natRepr num).data)
        (lowerStr (String.mk (computeLineHash num l).data)))) =
      Except.ok (LineRef.mk num (computeLineHash num l))
    rw [natRepr_val num]
    rw [if_neg (by omega : ¬ num < 1)]
    rw [mk_data, hlow]

theorem splitChars_no_newline : ∀ (cs : List Char), ∀ part ∈ splitChars cs,
    ∀ c ∈ part, c ≠ '\n' := by
  intro cs
  induction cs with
  | nil =>
    intro part hp c hc
    rcases List.mem_cons.mp hp with h | h
    · subst h; cases hc
    · cases h
  | cons x rest ih =>
    intro part hp c hc
    unfold splitChars at hp
    by_cases hx : x = '\n'
    · rw [if_pos hx] at hp
      rcases List.mem_cons.mp hp with h | h
      · subst h; cases hc
      · exact ih part h c hc
    · rw [if_neg hx] at hp
      revert hp
      cases hrest : splitChars rest with
      | nil =>
        intro hp
        rcases List.mem_cons.mp hp with h | h
        · subst h
          rcases List.mem_cons.mp hc with h' | h'
          · subst h'; exact hx
          · cases h'
        · cases h
      | cons hd tl =>
        intro hp
        rcases List.mem_cons.mp hp with h | h
        · subst h
          rcases List.mem_cons.mp hc with h' | h'
          · subst h'; exact hx
          · exact ih hd (by rw [hrest]; exact List.mem_cons_self hd tl) c h'
        · exact ih part (by rw [hrest]; exact List.mem_cons_of_mem hd h) c hc

theorem splitNl_no_newline (content : String) :
    ∀ l ∈ splitNl content, ∀ c ∈ l.data, c ≠ '\n' := by
  intro l hl c hc
  unfold splitNl at hl
  obtain ⟨part, hpart, heq⟩ := List.mem_map.mp hl
  subst heq
  exact splitChars_no_newline content.data part hpart c hc

theorem displayRT_aux : ∀ (lines : List String) (s : Nat), 1 ≤ s →
    (∀ l ∈ lines, ∀ c ∈ l.data, c ≠ '\n') →
    DisplayRoundTrip lines (fmtLines s lines) s := by
  intro lines
  induction lines with
  | nil =>
    intro s hs _
    exact ⟨rfl, fun i hi => absurd hi (by simp)⟩
  | cons l ls ih =>
    intro s hs hnl
    have hl : ∀ c ∈ l.data, c ≠ '\n' := hnl l (List.mem_cons_self l ls)
    have hls : ∀ x ∈ ls, ∀ c ∈ x.data, c ≠ '\n' :=
      fun x hx => hnl x (List.mem_cons_of_mem l hx)
    obtain ⟨hlen, hrt⟩ := ih (s + 1) (by omega) hls
    constructor
    · show (fmtLines (s + 1) ls).length + 1 = ls.length + 1
      omega
    · intro i hi hf
      cases i with
      | zero =>
        obtain ⟨h1, h2⟩ := fmt_line_parses s hs l hl
        exact ⟨h1, h2⟩
      | succ i =>
        have hi' : i < ls.length := by
          simp only [List.length_cons] at hi
          omega
        have hf' : i < (fmtLines (s + 1) ls).length := by omega
        obtain ⟨h1, h2⟩ := hrt i hi' hf'
        refine ⟨h1, ?_⟩
        show parseLineRef ((fmtLines (s + 1) ls).get ⟨i, hf'⟩) =
          Except.ok (LineRef.mk (s + (i + 1))
            (computeLineHash (s + (i + 1)) (ls.get ⟨i, hi'⟩)))
        have heq : s + (i + 1) = s + 1 + i := by omega
        rw [heq]
        exact h2

/-- C6: the display formatter emits one line per content line; the text
after the first pipe of each display line is the original line verbatim,
and parseLineRef on the display line recovers its line number
startLine + i and the computed hash of that line. -/
theorem c6_display_roundtrip (content : String) (startLine : Nat)
    (h : 1 ≤ startLine) :
    formatHashLines content startLine =
      joinNl (fmtLines startLine (splitNl content)) ∧
    DisplayRoundTrip (splitNl content) (fmtLines startLine (splitNl content))
      startLine :=
  ⟨rfl, displayRT_aux (splitNl content) startLine h (splitNl_no_newline content)⟩

theorem c6_display_roundtrip_witness :
    formatHashLines "foo\nbar" 1 = joinNl (fmtLines 1 (splitNl "foo\nbar")) ∧
    DisplayRoundTrip (splitNl "foo\nbar") (fmtLines 1 (splitNl "foo\nbar")) 1 :=
  c6_display_roundtrip "foo\nbar" 1 (by decide)

/-! ## C7: commutativity of disjoint batches -/

theorem parseAll_perm : ∀ {edits' edits : List HashlineEdit},
    edits'.Perm edits → ∀ ps, parseAll edits = .ok ps →
    ∃ ps', parseAll edits' = .ok ps' ∧ ps'.Perm ps := by
  intro edits' edits hperm
  induction hperm with
  | nil => exact fun ps hp => ⟨ps, hp, by injection hp with h; subst h; exact List.Perm.refl []⟩
  | cons x h ih =>
    intro ps hp
    unfold parseAll at hp
    revert hp
    split
    · intro hp; cases hp
    · rename_i p hpx
      split
      · intro hp; cases hp
      · rename_i ps₂ hps₂
        intro hp
        injection hp with hp
        subst hp
        obtain ⟨ps₁, hps₁, hperm₁⟩ := ih ps₂ hps₂
        refine ⟨p :: ps₁, ?_, hperm₁.cons p⟩
        unfold parseAll
        rw [hpx, hps₁]
  | swap x y l =>
    intro ps hp
    unfold parseAll at hp
    revert hp
    split
    · intro hp; cases hp
    · rename_i py hpy
      split
      · intro hp; cases hp
      · rename_i rest hrest
        unfold parseAll at hrest
        revert hrest
        split
        · intro hrest; cases hrest
        · rename_i px hpx
          split
          · intro hrest; cases hrest
          · rename_i ps₀ hps₀
            intro hrest hp
            injection hrest with hrest
            injection hp with hp
            subst hrest
            subst hp
            refine ⟨px :: py :: ps₀, ?_, List.Perm.swap py px ps₀⟩
            unfold parseAll
            rw [hpx]
            unfold parseAll
            rw [hpy, hps₀]
  | trans h1 h2 ih1 ih2 =>
    intro ps hp
    obtain ⟨ps₂, hps₂, hperm₂⟩ := ih2 ps hp
    obtain ⟨ps₁, hps₁, hperm₁⟩ := ih1 ps₂ hps₂
    exact ⟨ps₁, hps₁, hperm₁.trans hperm₂⟩

theorem collect_ok_nil : ∀ (ps : List ParsedEdit) (fl : List String),
    (∀ r ∈ refsOf ps, validateLineRef r fl = .ok none) →
    collectMismatches ps fl = .ok [] := by
  intro ps
  induction ps with
  | nil => intro fl _; rfl
  | cons p ps ih =>
    intro fl hvalid
    have hstart : validateLineRef p.startRef fl = .ok none := by
      apply hvalid
      unfold refsOf refsOfEdit
      simp
    have hrest : ∀ r ∈ refsOf ps, validateLineRef r fl = .ok none := by
      intro r hr
      apply hvalid
      unfold refsOf at hr ⊢
      rw [List.flatMap_cons]
      exact List.mem_append_right _ hr
    have hend : validateEndRef p fl = .ok none := by
      unfold validateEndRef
      cases hcase : p.endRef with
      | none => rfl
      | some r2 =>
        apply hvalid
        unfold refsOf refsOfEdit
        rw [List.flatMap_cons, hcase]
        simp
    unfold collectMismatches
    rw [hstart, hend, ih fl hrest]
    rfl

theorem parseEdit_start_le_end (e : HashlineEdit) (p : ParsedEdit)
    (hp : parseEdit e = .ok p) : p.startLine ≤ p.endLine := by
  cases e with
  | set_line a t =>
    simp only [parseEdit] at hp
    split at hp
    · cases hp
    · injection hp with hp; subst hp; exact le_refl _
  | replace_lines sa ea t =>
    simp only [parseEdit] at hp
    split at hp
    · cases hp
    · split at hp
      · cases hp
      · split at hp
        · cases hp
        · rename_i hle
          injection hp with hp
          subst hp
          exact Nat.le_of_not_lt hle
  | insert_after a t =>
    simp only [parseEdit] at hp
    split at hp
    · cases hp
    · split at hp
      · cases hp
      · injection hp with hp; subst hp; exact le_refl _

theorem parseAll_mem : ∀ (edits : List HashlineEdit) (ps : List ParsedEdit),
    parseAll edits = .ok ps → ∀ p ∈ ps, ∃ e ∈ edits, parseEdit e = .ok p := by
  intro edits
  induction edits with
  | nil =>
    intro ps hp p hmem
    injection hp with hp
    subst hp
    cases hmem
  | cons e es ih =>
    intro ps hp p hmem
    unfold parseAll at hp
    revert hp
    split
    · intro hp; cases hp
    · rename_i p₀ hp₀
      split
      · intro hp; cases hp
      · rename_i ps₀ hps₀
        intro hp
        injection hp with hp
        subst hp
        rcases List.mem_cons.mp hmem with h | h
        · subst h
          exact ⟨e, List.mem_cons_self e es, hp₀⟩
        · obtain ⟨e', he', hpe'⟩ := ih ps₀ hps₀ p h
          exact ⟨e', List.mem_cons_of_mem e he', hpe'⟩

theorem editLE_total (a b : ParsedEdit) : editLE a b = true ∨ editLE b a = true := by
  unfold editLE
  by_cases h : a.endLine = b.endLine
  · rw [if_neg (by omega), if_neg (by omega)]
    rcases Nat.le_total (editPrec a.kind) (editPrec b.kind) with h' | h'
    · left; simpa using h'
    · right; simpa using h'
  · rw [if_pos h, if_pos (by omega)]
    rcases Nat.le_total a.endLine b.endLine with h' | h'
    · right; simpa using h'
    · left; simpa using h'

theorem editLE_trans (a b c : ParsedEdit) (hab : editLE a b = true)
    (hbc : editLE b c = true) : editLE a c = true := by
  unfold editLE at hab hbc ⊢
  by_cases h1 : a.endLine = b.endLine <;> by_cases h2 : b.endLine = c.endLine
  · rw [if_neg (by omega)] at hab hbc ⊢
    simp only [decide_eq_true_eq] at hab hbc ⊢
    omega
  · rw [if_neg (by omega)] at hab
    rw [if_pos h2] at hbc
    rw [if_pos (by omega)]
    simp only [decide_eq_true_eq] at hbc ⊢
    omega
  · rw [if_pos h1] at hab
    rw [if_neg (by omega)] at hbc
    rw [if_pos (by omega)]
    simp only [decide_eq_true_eq] at hab ⊢
    omega
  · rw [if_pos h1] at hab
    rw [if_pos h2] at hbc
    simp only [decide_eq_true_eq] at hab hbc
    by_cases h3 : a.endLine = c.endLine
    · rw [if_neg (by omega)]
      simp only [decide_eq_true_eq]
      omega
    · rw [if_pos h3]
      simp only [decide_eq_true_eq]
      omega

theorem insertSorted_perm (a : ParsedEdit) : ∀ l : List ParsedEdit,
    (insertSorted a l).Perm (a :: l) := by
  intro l
  induction l with
  | nil => exact List.Perm.refl [a]
  | cons b t ih =>
    unfold insertSorted
    by_cases h : editLE a b = true
    · rw [if_pos h]
    · rw [if_neg h]
      exact (ih.cons b).trans (List.Perm.swap a b t)

theorem sortEdits_perm : ∀ l : List ParsedEdit, (sortEdits l).Perm l := by
  intro l
  induction l with
  | nil => exact List.Perm.refl []
  | cons a t ih =>
    unfold sortEdits
    exact (insertSorted_perm a (sortEdits t)).trans (ih.cons a)

theorem mem_insertSorted (a x : ParsedEdit) (l : List ParsedEdit) :
    x ∈ insertSorted a l ↔ x = a ∨ x ∈ l := by
  rw [(insertSorted_perm a l).mem_iff]
  exact List.mem_cons

theorem insertSorted_sorted (a : ParsedEdit) : ∀ l : List ParsedEdit,
    l.Pairwise (fun x y => editLE x y = true) →
    (insertSorted a l).Pairwise (fun x y => editLE x y = true) := by
  intro l
  induction l with
  | nil => intro _; exact List.pairwise_singleton _ a
  | cons b t ih =>
    intro hs
    have hbt : ∀ y ∈ t, editLE b y = true := fun y hy => List.rel_of_pairwise_cons hs hy
    have hst : t.Pairwise (fun x y => editLE x y = true) := hs.of_cons
    unfold insertSorted
    by_cases h : editLE a b = true
    · rw [if_pos h]
      apply List.Pairwise.cons
      · intro y hy
        rcases List.mem_cons.mp hy with h' | h'
        · subst h'; exact h
        · exact editLE_trans a b y h (hbt y h')
      · exact hs
    · rw [if_neg h]
      have hba : editLE b a = true := by
        rcases editLE_total a b with h' | h'
        · exact absurd h' h
        · exact h'
      apply List.Pairwise.cons
      · intro y hy
        rcases (mem_insertSorted a y t).mp hy with h' | h'
        · subst h'; exact hba
        · exact hbt y h'
      · exact ih hst

theorem sortEdits_sorted : ∀ l : List ParsedEdit,
    (sortEdits l).Pairwise (fun x y => editLE x y = true) := by
  intro l
  induction l with
  | nil => exact List.Pairwise.nil
  | cons a t ih =>
    unfold sortEdits
    exact insertSorted_sorted a (sortEdits t) ih

theorem sorted_perm_eq : ∀ (l₁ l₂ : List ParsedEdit), l₁.Perm l₂ →
    l₁.Pairwise (fun x y => editLE x y = true) →
    l₂.Pairwise (fun x y => editLE x y = true) →
    (∀ a b, a ∈ l₁ → b ∈ l₁ → editLE a b = true → editLE b a = true → a = b) →
    l₁ = l₂ := by
  intro l₁
  induction l₁ with
  | nil =>
    intro l₂ hperm _ _ _
    exact hperm.nil_eq
  | cons a t ih =>
    intro l₂ hperm hs1 hs2 hanti
    cases l₂ with
    | nil =>
      exact absurd hperm.length_eq (by simp)
    | cons b t₂ =>
      by_cases hab : a = b
      · subst hab
        have htperm : t.Perm t₂ := hperm.cons_inv
        rw [ih t₂ htperm hs1.of_cons hs2.of_cons
          (fun x y hx hy => hanti x y (List.mem_cons_of_mem a hx)
            (List.mem_cons_of_mem a hy))]
      · have hbmem : b ∈ a :: t := hperm.mem_iff.mpr (List.mem_cons_self b t₂)
        have hamem : a ∈ b :: t₂ := hperm.mem_iff.mp (List.mem_cons_self a t)
        have hbt : b ∈ t := by
          rcases List.mem_cons.mp hbmem with h | h
          · exact absurd h.symm hab
          · exact h
        have hat₂ : a ∈ t₂ := by
          rcases List.mem_cons.mp hamem with h | h
          · exact absurd h hab
          · exact h
        have h1 : editLE a b = true := List.rel_of_pairwise_cons hs1 hbt
        have h2 : editLE b a = true := List.rel_of_pairwise_cons hs2 hat₂
        exact absurd (hanti a b (List.mem_cons_self a t)
          (List.mem_cons_of_mem a hbt) h1 h2) hab

theorem applyHashlineEdits_valid (content : String) (edits : List HashlineEdit)
    (ps : List ParsedEdit) (hp : parseAll edits = .ok ps)
    (hne : ¬ edits.length = 0)
    (hvalid : ∀ r ∈ refsOf ps, validateLineRef r (splitNl content) = .ok none) :
    applyHashlineEdits content edits =
      .ok ⟨joinNl (applyParsed (splitNl content) (sortEdits ps)).1,
        (applyParsed (splitNl content) (sortEdits ps)).2.1,
        (applyParsed (splitNl content) (sortEdits ps)).2.2⟩ := by
  unfold applyHashlineEdits
  rw [if_neg hne, hp]
  show (match collectMismatches ps (splitNl content) with
    | Except.error e => Except.error e
    | Except.ok mismatches =>
      if 0 < mismatches.length then
        Except.error (EditErr.hashMismatch mismatches (splitNl content))
      else
        Except.ok (ApplyResult.mk (joinNl (applyParsed (splitNl content) (sortEdits ps)).1)
          (applyParsed (splitNl content) (sortEdits ps)).2.1
          (applyParsed (splitNl content) (sortEdits ps)).2.2)) = _
  rw [collect_ok_nil ps (splitNl content) hvalid]
  show (if 0 < ([] : List HashMismatch).length then _ else _) = _
  rw [if_neg (by simp)]

theorem endLines_distinct (ps : List ParsedEdit)
    (hdisj : ps.Pairwise SpansDisjoint)
    (hse : ∀ p ∈ ps, p.startLine ≤ p.endLine) :
    ps.Pairwise (fun p q => p.endLine ≠ q.endLine) := by
  apply List.Pairwise.imp_of_mem ?_ hdisj
  intro a b ha hb hr
  have hsa := hse a ha
  have hsb := hse b hb
  rcases hr with h | h <;> omega

theorem editLE_antisym_mem (l : List ParsedEdit)
    (hd : l.Pairwise (fun p q => p.endLine ≠ q.endLine)) :
    ∀ a b, a ∈ l → b ∈ l → editLE a b = true → editLE b a = true → a = b := by
  intro a b ha hb h1 h2
  by_contra hne
  have hsym : Symmetric (fun p q : ParsedEdit => p.endLine ≠ q.endLine) :=
    fun x y h => h.symm
  have hne' : a.endLine ≠ b.endLine := hd.forall hsym ha hb hne
  unfold editLE at h1 h2
  rw [if_pos hne'] at h1
  rw [if_pos (Ne.symm hne')] at h2
  simp only [decide_eq_true_eq] at h1 h2
  omega

/-- C7: a batch of parsed edits with pairwise-disjoint line spans whose
anchors all validate against the pre-batch snapshot produces the same
output content and the same added/removed counts under every permutation
of the batch. -/
theorem c7_disjoint_batch_commutes (content : String)
    (edits edits' : List HashlineEdit) (ps : List ParsedEdit)
    (hp : parseAll edits = .ok ps)
    (hperm : edits'.Perm edits)
    (hdisj : ps.Pairwise SpansDisjoint)
    (hvalid : ∀ r ∈ refsOf ps, validateLineRef r (splitNl content) = .ok none) :
    applyHashlineEdits content edits' = applyHashlineEdits content edits := by
  by_cases hnil : edits = []
  · subst hnil
    rw [hperm.eq_nil]
  · have hlen : ¬ edits.length = 0 := fun h => hnil (List.eq_nil_of_length_eq_zero h)
    obtain ⟨ps', hp', hpsperm⟩ := parseAll_perm hperm ps hp
    have hlen' : ¬ edits'.length = 0 := by rw [hperm.length_eq]; exact hlen
    have hvalid' : ∀ r ∈ refsOf ps', validateLineRef r (splitNl content) = .ok none := by
      intro r hr
      apply hvalid
      unfold refsOf at hr ⊢
      obtain ⟨p, hpmem, hrp⟩ := List.mem_flatMap.mp hr
      exact List.mem_flatMap.mpr ⟨p, hpsperm.subset hpmem, hrp⟩
    rw [applyHashlineEdits_valid content edits' ps' hp' hlen' hvalid',
      applyHashlineEdits_valid content edits ps hp hlen hvalid]
    have hse : ∀ p ∈ ps, p.startLine ≤ p.endLine := by
      intro p hpm
      obtain ⟨e, _, he⟩ := parseAll_mem edits ps hp p hpm
      exact parseEdit_start_le_end e p he
    have hd : ps.Pairwise (fun p q => p.endLine ≠ q.endLine) :=
      endLines_distinct ps hdisj hse
    have hsorteq : sortEdits ps' = sortEdits ps := by
      apply sorted_perm_eq
      · exact (sortEdits_perm ps').trans (hpsperm.trans (sortEdits_perm ps).symm)
      · exact sortEdits_sorted ps'
      · exact sortEdits_sorted ps
      · intro a b ha hb h1 h2
        exact editLE_antisym_mem ps hd a b
          (hpsperm.subset ((sortEdits_perm ps').subset ha))
          (hpsperm.subset ((sortEdits_perm ps').subset hb)) h1 h2
    rw [hsorteq]

theorem c7_disjoint_batch_commutes_witness :
    applyHashlineEdits "alpha\nbeta\ngamma\ndelta"
        [.replace_lines "3:6d" "4:7c" "", .set_line "1:c8" "ALPHA"] =
      applyHashlineEdits "alpha\nbeta\ngamma\ndelta"
        [.set_line "1:c8" "ALPHA", .replace_lines "3:6d" "4:7c" ""] :=
  c7_disjoint_batch_commutes "alpha\nbeta\ngamma\ndelta"
    [.set_line "1:c8" "ALPHA", .replace_lines "3:6d" "4:7c" ""]
    [.replace_lines "3:6d" "4:7c" "", .set_line "1:c8" "ALPHA"]
    [⟨.set, 1, 1, ⟨1, "c8"⟩, none, ["ALPHA"]⟩,
     ⟨.range, 3, 4, ⟨3, "6d"⟩, some ⟨4, "7c"⟩, []⟩]
    (by decide) (by decide)
    (by
      refine List.pairwise_cons.mpr ⟨?_, List.pairwise_singleton _ _⟩
      intro q hq
      rw [List.mem_singleton.mp hq]
      exact Or.inl (by decide))
    (by decide)


theorem mem_toolResultsFor : ∀ (tcs : List ToolCallInfo) (outs : List String)
    (m : Msg), m ∈ toolResultsFor tcs outs →
    ∃ tc ∈ tcs, ∃ (o : String), m = Msg.toolResult tc.id o := by
  intro tcs
  induction tcs with
  | nil => intro outs m hm; cases hm
  | cons tc tcs ih =>
    intro outs m hm
    cases outs with
    | nil => cases hm
    | cons o outs =>
      rcases List.mem_cons.mp hm with h | h
      · exact ⟨tc, List.mem_cons_self tc tcs, o, h⟩
      · obtain ⟨tc', htc', o', hm'⟩ := ih outs m h
        exact ⟨tc', List.mem_cons_of_mem tc htc', o', hm'⟩

theorem allCalledIds_toolResultsFor : ∀ (tcs : List ToolCallInfo) (outs : List String),
    allCalledIds (toolResultsFor tcs outs) = [] := by
  intro tcs
  induction tcs with
  | nil => intro outs; rfl
  | cons tc tcs ih =>
    intro outs
    cases outs with
    | nil => rfl
    | cons o outs =>
      show calledIds (Msg.toolResult tc.id o) ++ allCalledIds (toolResultsFor tcs outs) = []
      rw [ih outs]
      rfl

theorem allCalledIds_append (xs ys : List Msg) :
    allCalledIds (xs ++ ys) = allCalledIds xs ++ allCalledIds ys := by
  unfold allCalledIds
  rw [List.flatMap_append]

theorem resCount_append (xs ys : List Msg) (c : String) :
    resCount (xs ++ ys) c = resCount xs c + resCount ys c := by
  unfold resCount
  rw [List.filter_append, List.length_append]

theorem resCount_toolResultsFor_le : ∀ (tcs : List ToolCallInfo)
    (outs : List String) (c : String),
    resCount (toolResultsFor tcs outs) c ≤
      List.count c (tcs.map (fun tc => tc.id)) := by
  intro tcs
  induction tcs with
  | nil => intro outs c; exact Nat.le_refl 0
  | cons tc tcs ih =>
    intro outs c
    cases outs with
    | nil =>
      show resCount [] c ≤ _
      exact Nat.zero_le _
    | cons o outs =>
      show resCount (Msg.toolResult tc.id o :: toolResultsFor tcs outs) c ≤
        List.count c (tc.id :: tcs.map (fun tc => tc.id))
      unfold resCount
      rw [List.filter_cons, List.count_cons]
      by_cases h : tc.id = c
      · rw [if_pos (by simp [isToolResultFor, h]), if_pos (by simp [h])]
        simpa using ih outs c
      · rw [if_neg (by simp [isToolResultFor, h]), if_neg (by simp [h])]
        simpa using ih outs c

theorem getLast?_mem' : ∀ (l : List Msg) (x : Msg), l.getLast? = some x → x ∈ l := by
  intro l
  induction l with
  | nil => intro x h; cases h
  | cons a t ih =>
    intro x h
    cases t with
    | nil =>
      injection h with h
      subst h
      exact List.mem_cons_self a []
    | cons b t' =>
      rw [List.getLast?_cons_cons] at h
      exact List.mem_cons_of_mem a (ih x h)

theorem convShape_drop_user (b : Bool) (ms : List Msg) (t : String)
    (l : List Msg) (h : ConvShape b l) :
    l = ms ++ [Msg.user t] → ConvShape b ms := by
  cases h with
  | nil =>
    intro heq
    exact absurd heq.symm (by simp)
  | pushUser ms' t' h' =>
    intro heq
    have hinj := List.append_inj' heq rfl
    rw [hinj.1] at h'
    exact h'
  | pushAssistantText ms' t' hne h' =>
    intro heq
    have hinj := List.append_inj' heq rfl
    exact absurd hinj.2 (by simp)
  | toolBatch ms' txt tcs k outs hne hk houts hfull h' =>
    intro heq
    exfalso
    have hlast : (ms' ++ Msg.assistantCalls txt tcs ::
        toolResultsFor (tcs.take k) outs).getLast? = some (Msg.user t) := by
      rw [heq]
      exact List.getLast?_concat ms
    rw [List.getLast?_append] at hlast
    cases hres : (Msg.assistantCalls txt tcs ::
        toolResultsFor (tcs.take k) outs).getLast? with
    | none =>
      rw [hres] at hlast
      simp at hres
    | some x =>
      rw [hres] at hlast
      have hx : x = Msg.user t := by
        simpa [Option.or] using hlast
      have hxmem := getLast?_mem' _ x hres
      rcases List.mem_cons.mp hxmem with h1 | h1
      · rw [hx] at h1; cases h1
      · obtain ⟨tc, _, o, hre⟩ := mem_toolResultsFor _ _ x h1
        rw [hx] at hre
        cases hre

theorem step_shape (b : Bool) {x y : List Msg} (hstep : AgentConvStep b x y)
    (hx : ConvShape b x) : ConvShape b y := by
  cases hstep
  case pushUser t => exact ConvShape.pushUser x t hx
  case pushAssistantText t hne => exact ConvShape.pushAssistantText x t hne hx
  case toolBatch txt tcs k outs hne hk houts hfull =>
    exact ConvShape.toolBatch x txt tcs k outs hne hk houts hfull hx
  case clearAll => exact ConvShape.nil
  case popLastUser t => exact convShape_drop_user b y t _ hx rfl

theorem reach_convShape (b : Bool) (ms : List Msg)
    (h : ReachableConv b ms) : ConvShape b ms := by
  unfold ReachableConv at h
  induction h with
  | refl => exact ConvShape.nil
  | tail hsteps hstep ih => exact step_shape b hstep ih

theorem allCalledIds_cons (m : Msg) (ms : List Msg) :
    allCalledIds (m :: ms) = calledIds m ++ allCalledIds ms := by
  unfold allCalledIds
  rw [List.flatMap_cons]

theorem resCount_batch (txt : Option String) (tcs rtcs : List ToolCallInfo)
    (outs : List String) (c : String) :
    resCount (Msg.assistantCalls txt tcs :: toolResultsFor rtcs outs) c =
      resCount (toolResultsFor rtcs outs) c := by
  unfold resCount
  rw [List.filter_cons, if_neg (by simp [isToolResultFor])]

theorem resultsMatched_push (ms : List Msg) (x : Msg)
    (hx : ∀ c cont, x ≠ Msg.toolResult c cont)
    (h : ResultsMatched ms) : ResultsMatched (ms ++ [x]) := by
  intro n c cont hn
  rw [List.getElem?_append] at hn
  by_cases hlt : n < ms.length
  · rw [if_pos hlt] at hn
    obtain ⟨m, hm, hc⟩ := h n c cont hn
    refine ⟨m, ?_, hc⟩
    rw [List.take_append_eq_append_take]
    exact List.mem_append_left _ hm
  · rw [if_neg hlt] at hn
    have hmem := List.getElem?_mem hn
    have heq := List.mem_singleton.mp hmem
    exact absurd heq.symm (hx c cont)

theorem resultsMatched_batch (ms : List Msg) (txt : Option String)
    (tcs : List ToolCallInfo) (k : Nat) (outs : List String)
    (h : ResultsMatched ms) :
    ResultsMatched
      (ms ++ Msg.assistantCalls txt tcs :: toolResultsFor (tcs.take k) outs) := by
  intro n c cont hn
  rw [List.getElem?_append] at hn
  by_cases hlt : n < ms.length
  · rw [if_pos hlt] at hn
    obtain ⟨m, hm, hc⟩ := h n c cont hn
    refine ⟨m, ?_, hc⟩
    rw [List.take_append_eq_append_take]
    exact List.mem_append_left _ hm
  · rw [if_neg hlt] at hn
    cases hd : n - ms.length with
    | zero =>
      rw [hd, List.getElem?_cons_zero] at hn
      injection hn with hn
      cases hn
    | succ j =>
      rw [hd, List.getElem?_cons_succ] at hn
      refine ⟨Msg.assistantCalls txt tcs, ?_, ?_⟩
      · rw [List.take_append_eq_append_take, hd]
        refine List.mem_append_right _ ?_
        rw [List.take_succ_cons]
        exact List.mem_cons_self _ _
      · show c ∈ tcs.map (fun tc => tc.id)
        have hmem := List.getElem?_mem hn
        obtain ⟨tc, htc, o, heq⟩ := mem_toolResultsFor _ _ _ hmem
        injection heq with h1 h2
        rw [h1]
        exact List.mem_map.mpr ⟨tc, List.mem_of_mem_take htc, rfl⟩

theorem convShape_resultsMatched (b : Bool) (ms : List Msg)
    (h : ConvShape b ms) : ResultsMatched ms := by
  induction h with
  | nil =>
    intro n c cont hn
    rw [List.getElem?_nil] at hn
    cases hn
  | pushUser ms t hprev ih =>
    exact resultsMatched_push ms _ (fun c cont h2 => Msg.noConfusion h2) ih
  | pushAssistantText ms t hne hprev ih =>
    exact resultsMatched_push ms _ (fun c cont h2 => Msg.noConfusion h2) ih
  | toolBatch ms txt tcs k outs hne hk houts hfull hprev ih =>
    exact resultsMatched_batch ms txt tcs k outs ih

theorem convShape_resCount (b : Bool) (ms : List Msg) (h : ConvShape b ms)
    (c : String) : resCount ms c ≤ List.count c (allCalledIds ms) := by
  induction h with
  | nil => exact Nat.le_refl 0
  | pushUser ms t hprev ih =>
    rw [resCount_append, allCalledIds_append, List.count_append]
    have h1 : resCount [Msg.user t] c = 0 := rfl
    have h2 : allCalledIds [Msg.user t] = [] := rfl
    rw [h1, h2, List.count_nil]
    omega
  | pushAssistantText ms t hne hprev ih =>
    rw [resCount_append, allCalledIds_append, List.count_append]
    have h1 : resCount [Msg.assistantText t] c = 0 := rfl
    have h2 : allCalledIds [Msg.assistantText t] = [] := rfl
    rw [h1, h2, List.count_nil]
    omega
  | toolBatch ms txt tcs k outs hne hk houts hfull hprev ih =>
    rw [resCount_append, allCalledIds_append, List.count_append,
      resCount_batch, allCalledIds_cons, allCalledIds_toolResultsFor,
      List.append_nil]
    have h3 : resCount (toolResultsFor (tcs.take k) outs) c ≤
        List.count c ((tcs.take k).map (fun tc => tc.id)) :=
      resCount_toolResultsFor_le _ _ _
    have h4 : List.count c ((tcs.take k).map (fun tc => tc.id)) ≤
        List.count c (tcs.map (fun tc => tc.id)) :=
      List.Sublist.count_le (List.Sublist.map _ (List.take_sublist k tcs)) c
    have h5 : List.count c (calledIds (Msg.assistantCalls txt tcs)) =
        List.count c (tcs.map (fun tc => tc.id)) := rfl
    rw [h5]
    omega

theorem followingResCount_le (ms : List Msg) (i : Nat) (c : String) :
    followingResCount ms i c ≤ resCount ms c := by
  unfold followingResCount resCount
  exact List.Sublist.length_le (List.Sublist.filter _ (List.drop_sublist (i + 1) ms))

theorem convShape_atMostOnce (b : Bool) (ms : List Msg) (h : ConvShape b ms)
    (huniq : (allCalledIds ms).Nodup) : AtMostOnceAnswered ms := by
  intro i c m hm hc
  have h1 := followingResCount_le ms i c
  have h2 := convShape_resCount b ms h c
  have h3 := List.nodup_iff_count_le_one.mp huniq c
  omega

theorem resCount_toolResultsFor_ge : ∀ (tcs : List ToolCallInfo)
    (outs : List String) (c : String), outs.length = tcs.length →
    c ∈ tcs.map (fun tc => tc.id) → 1 ≤ resCount (toolResultsFor tcs outs) c := by
  intro tcs
  induction tcs with
  | nil => intro outs c _ hc; cases hc
  | cons tc tcs ih =>
    intro outs c hlen hc
    cases outs with
    | nil =>
      exfalso
      rw [List.length_nil, List.length_cons] at hlen
      exact Nat.noConfusion hlen
    | cons o outs =>
      show 1 ≤ resCount (Msg.toolResult tc.id o :: toolResultsFor tcs outs) c
      unfold resCount
      rw [List.filter_cons]
      by_cases hb : isToolResultFor c (Msg.toolResult tc.id o) = true
      · rw [if_pos hb, List.length_cons]
        exact Nat.succ_le_succ (Nat.zero_le _)
      · rw [if_neg hb]
        rw [List.map_cons] at hc
        rcases List.mem_cons.mp hc with h1 | h1
        · exact absurd (by simp [isToolResultFor, h1]) hb
        · have hlen2 : outs.length = tcs.length := by
            rw [List.length_cons, List.length_cons] at hlen
            omega
          exact ih outs c hlen2 h1

theorem atLeast_push (ms : List Msg) (x : Msg) (hx : calledIds x = [])
    (h : ∀ i c m, ms[i]? = some m → c ∈ calledIds m → 1 ≤ followingResCount ms i c) :
    ∀ i c m, (ms ++ [x])[i]? = some m → c ∈ calledIds m →
      1 ≤ followingResCount (ms ++ [x]) i c := by
  intro i c m hm hc
  rw [List.getElem?_append] at hm
  by_cases hlt : i < ms.length
  · rw [if_pos hlt] at hm
    have h1 := h i c m hm hc
    unfold followingResCount at h1 ⊢
    rw [List.drop_append_eq_append_drop, resCount_append]
    omega
  · rw [if_neg hlt] at hm
    have hmem := List.getElem?_mem hm
    have hxm := List.mem_singleton.mp hmem
    rw [hxm, hx] at hc
    cases hc

theorem atLeast_batch (ms : List Msg) (txt : Option String)
    (tcs : List ToolCallInfo) (outs : List String)
    (houts : outs.length = tcs.length)
    (h : ∀ i c m, ms[i]? = some m → c ∈ calledIds m → 1 ≤ followingResCount ms i c) :
    ∀ i c m,
      (ms ++ Msg.assistantCalls txt tcs :: toolResultsFor tcs outs)[i]? = some m →
      c ∈ calledIds m →
      1 ≤ followingResCount (ms ++ Msg.assistantCalls txt tcs :: toolResultsFor tcs outs) i c := by
  intro i c m hm hc
  rw [List.getElem?_append] at hm
  by_cases hlt : i < ms.length
  · rw [if_pos hlt] at hm
    have h1 := h i c m hm hc
    unfold followingResCount at h1 ⊢
    rw [List.drop_append_eq_append_drop, resCount_append]
    omega
  · rw [if_neg hlt] at hm
    cases hd : i - ms.length with
    | zero =>
      rw [hd, List.getElem?_cons_zero] at hm
      injection hm with hm
      have hi : i = ms.length := by omega
      unfold followingResCount
      rw [List.drop_append_eq_append_drop, hi]
      have e1 : ms.drop (ms.length + 1) = [] := List.drop_eq_nil_of_le (by omega)
      have e2 : ms.length + 1 - ms.length = 1 := by omega
      rw [e1, e2, List.nil_append]
      have e3 : List.drop 1 (Msg.assistantCalls txt tcs :: toolResultsFor tcs outs) =
          toolResultsFor tcs outs := rfl
      rw [e3]
      rw [← hm] at hc
      exact resCount_toolResultsFor_ge tcs outs c houts hc
    | succ j =>
      rw [hd, List.getElem?_cons_succ] at hm
      have hmem := List.getElem?_mem hm
      obtain ⟨tc, htc, o, heq⟩ := mem_toolResultsFor _ _ _ hmem
      have hcm : calledIds m = [] := by rw [heq]; rfl
      rw [hcm] at hc
      cases hc

theorem convShape_atLeastOnce (ms : List Msg) (h : ConvShape false ms) :
    ∀ i c m, ms[i]? = some m → c ∈ calledIds m → 1 ≤ followingResCount ms i c := by
  induction h with
  | nil =>
    intro i c m hm hc
    rw [List.getElem?_nil] at hm
    cases hm
  | pushUser ms t hprev ih => exact atLeast_push ms _ rfl ih
  | pushAssistantText ms t hne hprev ih => exact atLeast_push ms _ rfl ih
  | toolBatch ms txt tcs k outs hne hk houts hfull hprev ih =>
    have hkl : k = tcs.length := hfull rfl
    subst hkl
    rw [List.take_length]
    exact atLeast_batch ms txt tcs outs houts ih

/-- C3 (amended): the claimed conversation well-formedness holds only under
the extra hypothesis that the tool-call ids issued across the conversation
are pairwise distinct (the Ollama adapter numbers synthetic ids call_0,
call_1, ... afresh per response, so ids repeat across batches and the
exactly-once part fails without it).  Under distinct ids: in every
reachable conversation each tool-role message has a preceding assistant
message whose tool_calls contain its tool_call_id, without cancellation
each issued id is answered exactly once, and with possible cancellation
each issued id is answered at most once. -/
theorem c3_wellformed_amended (b : Bool) (msFull msPart : List Msg)
    (hF : ReachableConv false msFull) (hP : ReachableConv b msPart)
    (huF : (allCalledIds msFull).Nodup) (huP : (allCalledIds msPart).Nodup) :
    (ResultsMatched msFull ∧ ExactlyOnceAnswered msFull) ∧
    (ResultsMatched msPart ∧ AtMostOnceAnswered msPart) := by
  have hsF := reach_convShape false msFull hF
  have hsP := reach_convShape b msPart hP
  refine ⟨⟨convShape_resultsMatched false msFull hsF, ?_⟩,
    convShape_resultsMatched b msPart hsP, convShape_atMostOnce b msPart hsP huP⟩
  intro i c m hm hc
  have h1 := convShape_atLeastOnce msFull hsF i c m hm hc
  have h2 := convShape_atMostOnce false msFull hsF huF i c m hm hc
  omega

/-- C3 counterexample: the conversation c3msgs is reachable by the agent
loop with no cancellation (two fully dispatched single-call batches), yet
the id call_0 issued by its second message is followed by two tool-role
messages with that id, so the exactly-once part of the claim fails. -/
theorem c3_counterexample :
    ReachableConv false c3msgs ∧ ¬ ExactlyOnceAnswered c3msgs := by
  constructor
  · show Relation.ReflTransGen (AgentConvStep false) [] c3msgs
    have s1 : AgentConvStep false [] [Msg.user "u"] :=
      AgentConvStep.pushUser [] "u"
    have s2 : AgentConvStep false [Msg.user "u"]
        [Msg.user "u", Msg.assistantCalls none [⟨"call_0", "read", "{}"⟩],
         Msg.toolResult "call_0" "r1"] :=
      AgentConvStep.toolBatch [Msg.user "u"] none [⟨"call_0", "read", "{}"⟩]
        1 ["r1"] (by decide) (Nat.le_refl 1) rfl (fun _ => rfl)
    have s3 : AgentConvStep false
        [Msg.user "u", Msg.assistantCalls none [⟨"call_0", "read", "{}"⟩],
         Msg.toolResult "call_0" "r1"]
        c3msgs :=
      AgentConvStep.toolBatch
        [Msg.user "u", Msg.assistantCalls none [⟨"call_0", "read", "{}"⟩],
         Msg.toolResult "call_0" "r1"] none [⟨"call_0", "write", "{}"⟩]
        1 ["r2"] (by decide) (Nat.le_refl 1) rfl (fun _ => rfl)
    exact Relation.ReflTransGen.tail
      (Relation.ReflTransGen.tail (Relation.ReflTransGen.single s1) s2) s3
  · intro h
    have h2 := h 1 "call_0" (Msg.assistantCalls none [⟨"call_0", "read", "{}"⟩])
      rfl (by decide)
    exact absurd h2 (by decide)

/-- Witness: the amended theorem applied to the concrete reachable
conversation c3okMsgs, whose ids are distinct. -/
theorem c3_wellformed_amended_witness :
    (ResultsMatched c3okMsgs ∧ ExactlyOnceAnswered c3okMsgs) ∧
    (ResultsMatched c3okMsgs ∧ AtMostOnceAnswered c3okMsgs) := by
  have s1 : AgentConvStep false [] [Msg.user "u"] :=
    AgentConvStep.pushUser [] "u"
  have s2 : AgentConvStep false [Msg.user "u"] c3okMsgs :=
    AgentConvStep.toolBatch [Msg.user "u"] none [⟨"call_1", "read", "{}"⟩]
      1 ["ok"] (by decide) (Nat.le_refl 1) rfl (fun _ => rfl)
  have hr : ReachableConv false c3okMsgs :=
    Relation.ReflTransGen.tail (Relation.ReflTransGen.single s1) s2
  exact c3_wellformed_amended false c3okMsgs c3okMsgs hr hr (by decide) (by decide)
